import Mathlib

/-!
Shallow embedding of the DeepScribe AI backend's pipeline-orchestration core
(`backend/app/api/execution_manager.py`, `backend/app/agents/crew.py`,
`backend/app/core/retry.py`, `backend/app/core/parsing.py`), together with
theorems settling the frozen behavioural claims about it.

Strings are modelled as `List Char`; machine integers and Python ints as
`Nat` (all quantities involved - word counts, versions, delays, attempt
counters, scores - are non-negative in the source); Python dicts keyed by
strings as association lists or explicit key lists; fallible operations as
`Option`/`Except`.
-/

set_option maxHeartbeats 1000000

namespace DeepScribe

/-- Python whitespace as used by `str.strip`, `str.split()` and the regex
class `\s` (ASCII range): space, tab, newline, carriage return, vertical
tab, form feed. -/
def isWs (c : Char) : Bool :=
  c = ' ' || c = '\t' || c = '\n' || c = '\r' || c = '\x0b' || c = '\x0c'

/-- Helper for `countWords`: counts maximal runs of non-whitespace
characters; the flag records whether the previous character was inside a
word. -/
def wordsAux : List Char → Bool → Nat
  | [], _ => 0
  | c :: rest, inWord =>
    if isWs c then wordsAux rest false
    else (if inWord then 0 else 1) + wordsAux rest true

/-- Number of words of a string in the sense of Python `len(s.split())`:
the number of maximal whitespace-separated runs. Used by `run_pipeline`
(`word_count = len(content.split())`, execution_manager.py line 170). -/
def countWords (s : List Char) : Nat := wordsAux s false

/-- Python `str.strip()`: drop whitespace from both ends. -/
def pyStrip (s : List Char) : List Char :=
  ((s.dropWhile isWs).reverse.dropWhile isWs).reverse

/-- Lower-casing as in Python `str.lower()` (ASCII letters suffice for the
keyword tests performed by the code). -/
def toLowerList (s : List Char) : List Char := s.map Char.toLower

/-- Python substring test `needle in hay`. -/
def containsSub (hay needle : List Char) : Bool :=
  match hay with
  | [] => needle.isEmpty
  | _ :: rest => needle.isPrefixOf hay || containsSub rest needle

/- String constants appearing literally in execution_manager.py. -/

def lvlInfo : List Char := ['i', 'n', 'f', 'o']

def lvlSuccess : List Char := ['s', 'u', 'c', 'c', 'e', 's', 's']

def lvlWarning : List Char := ['w', 'a', 'r', 'n', 'i', 'n', 'g']

def lvlError : List Char := ['e', 'r', 'r', 'o', 'r']

def kwComplete : List Char := ['c', 'o', 'm', 'p', 'l', 'e', 't', 'e']

def kwFinished : List Char := ['f', 'i', 'n', 'i', 's', 'h', 'e', 'd']

def kwError : List Char := ['e', 'r', 'r', 'o', 'r']

def kwFail : List Char := ['f', 'a', 'i', 'l']

/-- Severity classification performed by the `on_progress` callback
(execution_manager.py lines 84-89): the message is lower-cased, the
"complete"/"finished" test runs first and yields `success`; only
otherwise does the "error"/"fail" test run and yield `error`; the
default is `info`. -/
def classifyProgressLevel (message : List Char) : List Char :=
  let m := toLowerList message
  if containsSub m kwComplete || containsSub m kwFinished then lvlSuccess
  else if containsSub m kwError || containsSub m kwFail then lvlError
  else lvlInfo

/-- A log entry (`AgentLog` dataclass, execution_manager.py lines 12-18). -/
structure AgentLog where
  timestamp : List Char
  agent : List Char
  message : List Char
  level : List Char
deriving DecidableEq

/-- The in-memory part of `add_log` (execution_manager.py lines 41-53):
append the entry, then keep only the last 100 entries. The database
mirror of the entry is best-effort and does not affect the in-memory
list. -/
def addLogEntry (logs : List AgentLog) (e : AgentLog) : List AgentLog :=
  let l := logs ++ [e]
  if l.length > 100 then l.drop (l.length - 100) else l

/-- Outcome of one `chain.ainvoke` attempt as discriminated by
`invoke_with_retry` (retry.py lines 20-42): success, an error whose text
matches "rate limit"/"429", or any other error. Values and errors are
abstracted to numeric identifiers. -/
inductive CallOutcome where
  | ok (v : Nat)
  | rateLimited (e : Nat)
  | failed (e : Nat)

/-- Observable result of `invoke_with_retry`: the returned value or the
re-raised error, the total number of attempts made, and the sequence of
sleep durations (seconds) in order. -/
structure RetryTrace where
  result : Except Nat Nat
  attempts : Nat
  waits : List Nat

/-- The retry loop of `invoke_with_retry` (retry.py lines 17-42).
`outcomes k` is the outcome of attempt number `k` (0-based).
`current_delay` in the source is initialised to `base_delay` and never
reassigned, so the wait before retry `n` is
`min(base_delay * n, max_delay)`. On a rate-limit failure the retry
counter is incremented; once it exceeds `max_retries` the last error is
re-raised. Non-rate-limit errors propagate immediately. -/
def invokeWithRetryAux (outcomes : Nat → CallOutcome)
    (maxRetries baseDelay maxDelay attempt retries : Nat)
    (waits : List Nat) : RetryTrace :=
  match outcomes attempt with
  | .ok v => ⟨.ok v, attempt + 1, waits⟩
  | .failed e => ⟨.error e, attempt + 1, waits⟩
  | .rateLimited e =>
    if h : maxRetries < retries + 1 then ⟨.error e, attempt + 1, waits⟩
    else
      invokeWithRetryAux outcomes maxRetries baseDelay maxDelay (attempt + 1) (retries + 1)
        (waits ++ [min (baseDelay * (retries + 1)) maxDelay])
termination_by maxRetries + 1 - retries
decreasing_by omega

/-- `invoke_with_retry` with its default parameters
(`max_retries=5, base_delay=10, max_delay=60`, retry.py lines 10-12). -/
def invoke_with_retry (outcomes : Nat → CallOutcome) : RetryTrace :=
  invokeWithRetryAux outcomes 5 10 60 0 0 []

/-- The message "failed to complete": it contains both the "fail" and the
"complete" keyword, separating the two classification orders. -/
def msgFailedToComplete : List Char :=
  ['f', 'a', 'i', 'l', 'e', 'd', ' ', 't', 'o', ' ', 'c', 'o', 'm', 'p', 'l', 'e', 't', 'e']

/-- A concrete log entry used to exercise the log ring buffer. -/
def dummyLog : AgentLog := ⟨[], ['S'], ['m'], lvlInfo⟩

/- Further string constants appearing literally in execution_manager.py. -/

def statusResearching : List Char := ("researching").toList

def statusWriting : List Char := ("writing").toList

def statusEditing : List Char := ("editing").toList

def statusDraftReady : List Char := ("draft_ready").toList

def statusFailed : List Char := ("failed").toList

def agentResearchName : List Char := ("ResearchAgent").toList

def agentSystem : List Char := ("System").toList

def msgRestarting : List Char := ("🔄 Restarting execution...").toList

/-- The `ExecutionState` dataclass (execution_manager.py lines 20-29).
`progress_percent` is a float in the source but only ever takes the
integral values 0, 20, 50, 80, 100, so it is modelled as `Nat`. -/
structure ExecutionState where
  project_id : List Char
  status : List Char
  current_agent : List Char
  progress_percent : Nat
  logs : List AgentLog
  sources_discovered : Nat
  is_complete : Bool
deriving DecidableEq

/-- A fresh `ExecutionState(project_id=project_id)` with all dataclass
defaults (execution_manager.py lines 23-29). -/
def initialExecutionState (pid : List Char) : ExecutionState :=
  ⟨pid, statusResearching, agentResearchName, 0, [], 0, false⟩

/-- Lookup in a string-keyed dict modelled as an association list
(first matching key wins; a well-formed dict has at most one entry per
key). -/
def lookupKey {α : Type} (m : List (List Char × α)) (k : List Char) : Option α :=
  match m with
  | [] => none
  | (k', v) :: rest => if k' = k then some v else lookupKey rest k

/-- Python dict assignment `m[k] = v`: replace the entry for `k` if
present, otherwise append a new one. -/
def insertKey {α : Type} (m : List (List Char × α)) (k : List Char) (v : α) :
    List (List Char × α) :=
  match m with
  | [] => [(k, v)]
  | (k', v') :: rest => if k' = k then (k, v) :: rest else (k', v') :: insertKey rest k v

/-- Number of entries stored under key `k`. -/
def countKey {α : Type} (m : List (List Char × α)) (k : List Char) : Nat :=
  (m.filter (fun p => p.1 == k)).length

/-- The state-retrieval prologue of `run_pipeline` (execution_manager.py
lines 76-81): use the registered `ExecutionState` if present, otherwise
create a fresh one, register it, and proceed with it. Returns the state
the run will use together with the updated state map. -/
def runPipelineGetState (states : List (List Char × ExecutionState)) (pid : List Char) :
    ExecutionState × List (List Char × ExecutionState) :=
  match lookupKey states pid with
  | some s => (s, states)
  | none =>
    let s := initialExecutionState pid
    (s, insertKey states pid s)

/-- The module-level mutable maps `_execution_states` and
`_execution_tasks` (execution_manager.py lines 32-33); task handles are
abstracted to numeric identifiers. -/
structure SupervisorState where
  states : List (List Char × ExecutionState)
  tasks : List (List Char × Nat)

/-- The primitive effects `start_execution` performs, in program order
(execution_manager.py lines 274-285): cancel a task, publish an
execution state into the state map, create and register a new task. -/
inductive SupOp where
  | cancelTask (tid : Nat)
  | setState (pid : List Char) (st : ExecutionState)
  | spawnTask (pid : List Char) (tid : Nat)
deriving DecidableEq

/-- The reset state installed by `start_execution` (execution_manager.py
lines 280-282): fresh state whose log list holds the single restart
entry. `ts` is the entry's timestamp. -/
def restartingState (pid ts : List Char) : ExecutionState :=
  ⟨pid, statusResearching, agentResearchName, 0, [⟨ts, agentSystem, msgRestarting, lvlInfo⟩], 0,
    false⟩

/-- The sequence of effects of `start_execution` (execution_manager.py
lines 272-288): first cancel the registered task for the project if one
exists, then overwrite the project's entry in the state map with a fresh
reset state, then create and register the new task. -/
def startExecutionOps (m : SupervisorState) (pid ts : List Char) (newTid : Nat) : List SupOp :=
  (match lookupKey m.tasks pid with
    | some tid => [SupOp.cancelTask tid]
    | none => []) ++
  [SupOp.setState pid (restartingState pid ts), SupOp.spawnTask pid newTid]

/-- Effect of one primitive operation on the two maps. Cancelling a task
does not touch either map. -/
def applyOp (m : SupervisorState) : SupOp → SupervisorState
  | .cancelTask _ => m
  | .setState pid st => { m with states := insertKey m.states pid st }
  | .spawnTask pid tid => { m with tasks := insertKey m.tasks pid tid }

/-- Apply a sequence of primitive operations in order. -/
def applyOps (m : SupervisorState) (ops : List SupOp) : SupervisorState :=
  ops.foldl applyOp m

/-- The `ProjectStatus` enum (models/project.py lines 20-33). -/
inductive ProjectStatus where
  | created
  | titles_generated
  | title_selected
  | plan_generated
  | plan_approved
  | researching
  | writing
  | editing
  | draft_ready
  | published
  | failed
deriving DecidableEq

/-- How one run of `run_pipeline` terminates, as discriminated by its
try/except structure (execution_manager.py lines 105, 245-269):
successful completion, `asyncio.CancelledError` (cooperative
cancellation), or any other exception. -/
inductive RunOutcome where
  | completed
  | cancelledSignal
  | errored (msg : List Char)
deriving DecidableEq

/-- The observable effects of `run_pipeline`'s epilogue for each outcome:
the final in-memory status and completion flag, the project status the
handler writes to the database (best-effort; `none` when no write is even
attempted), whether the exception is re-raised, and the level of the log
entry it appends. -/
structure RunFinal where
  status : List Char
  is_complete : Bool
  dbStatusWrite : Option ProjectStatus
  reraised : Bool
  logLevel : List Char
deriving DecidableEq

/-- Epilogue of `run_pipeline` (execution_manager.py lines 196-197 and
240-269). On success: status `draft_ready`, complete, project row set to
`DRAFT_READY`. On `CancelledError`: warning log, status `failed`,
complete, re-raise - and no database write of any project status is
attempted. On any other exception: error log, status `failed`, complete,
best-effort write of `ProjectStatus.FAILED` to the project row. -/
def runPipelineOutcomeEffects : RunOutcome → RunFinal
  | .completed => ⟨statusDraftReady, true, some .draft_ready, false, lvlSuccess⟩
  | .cancelledSignal => ⟨statusFailed, true, none, true, lvlWarning⟩
  | .errored _ => ⟨statusFailed, true, some .failed, false, lvlError⟩

/-- A concrete project id used in witnesses. -/
def pidEx : List Char := ['p', '1']

/-- One outline section as prepared by `run_pipeline`
(execution_manager.py lines 145-152): heading, key points, target word
count, plus the plan's `order` field used for sorting. -/
structure SectionSpec where
  heading : List Char
  key_points : List (List Char)
  estimated_words : Nat
  order : Nat
deriving DecidableEq

/-- The writer stage's output schema (`SectionContent`, writer.py lines
15-19). -/
structure SectionContent where
  heading : List Char
  content : List Char
  word_count : Nat
  citations : List (List Char)
deriving DecidableEq

/-- The editor stage's output schema (`EditedContent`, editor.py lines
15-18). -/
structure EditedContent where
  final_content : List Char
  summary_of_changes : List Char
  word_count : Nat
deriving DecidableEq

/-- The quality validator's output schema (`InsightAssessment`,
insight_validator.py lines 15-25). -/
structure InsightAssessment where
  insight_score_inspiring : Nat
  insight_score_novel : Nat
  insight_score_structured : Nat
  insight_score_informative : Nat
  insight_score_grounded : Nat
  insight_score_helpful : Nat
  insight_score_trustworthy : Nat
  primary_insight : List Char
  feedback : List (List Char)
  suggestions : List (List Char)
deriving DecidableEq

/-- Stable sort of the plan's sections by their `order` field, as done by
`sorted(project.plan.sections, key=lambda x: x.order)` in `run_pipeline`
(execution_manager.py line 151). Insertion sort placing an element after
all earlier elements with `order` less than or equal to its own is stable,
matching Python's `sorted`. -/
def insertByOrder (s : SectionSpec) : List SectionSpec → List SectionSpec
  | [] => [s]
  | t :: ts => if t.order ≤ s.order then t :: insertByOrder s ts else s :: t :: ts

/-- See `insertByOrder`. -/
def sortByOrder : List SectionSpec → List SectionSpec
  | [] => []
  | s :: rest => insertByOrder s (sortByOrder rest)

/-- Python `"\n\n".join(...)` (crew.py line 131). -/
def joinBlankLine (parts : List (List Char)) : List Char :=
  List.intercalate ['\n', '\n'] parts

/-- `asyncio.gather` result-slot model: the tasks' results `results` are
written into a slot array indexed by task position, in the order the
tasks happen to complete (`sched` lists task indices in completion
order). `gather` itself always returns the slots in task order. -/
def fillSlots {α : Type} (results : List α) : List Nat → List (Option α) → List (Option α)
  | [], slots => slots
  | i :: rest, slots => fillSlots results rest (slots.set i results[i]?)

/-- See `fillSlots`: the slot array after all completions, starting from
all-empty slots. -/
def gatherSchedule {α : Type} (results : List α) (sched : List Nat) : List (Option α) :=
  fillSlots results sched (List.replicate results.length none)

/-- The writing-phase fan-out/fan-in of `run_full_pipeline` (crew.py
lines 103-128) applied to the outline-sorted sections: one writer call
per section, gathered under completion order `sched`. -/
def writtenSections (sections : List SectionSpec) (writerF : SectionSpec → SectionContent)
    (sched : List Nat) : List SectionContent :=
  (gatherSchedule ((sortByOrder sections).map writerF) sched).filterMap id

/-- Full-draft aggregation (crew.py line 131): section bodies joined with
a blank line. -/
def fullDraft (sections : List SectionSpec) (writerF : SectionSpec → SectionContent)
    (sched : List Nat) : List Char :=
  joinBlankLine ((writtenSections sections writerF sched).map SectionContent.content)

/-- Word-count aggregation (crew.py line 132): sum of the per-section
word counts. -/
def fullWordCount (sections : List SectionSpec) (writerF : SectionSpec → SectionContent)
    (sched : List Nat) : Nat :=
  ((writtenSections sections writerF sched).map SectionContent.word_count).sum

/-- The dict returned by `run_full_pipeline` (crew.py lines 174-180):
keys `content` (the editor's polished text), `research` (stringified
research dump), `insight_scores` (the validator's assessment) and
`word_count` (the editor's reported count). -/
structure PipelineOutput where
  content : List Char
  research : List Char
  insight_scores : InsightAssessment
  word_count : Nat
deriving DecidableEq

def keyContent : List Char := ("content").toList

def keyResearch : List Char := ("research").toList

def keyInsightScores : List Char := ("insight_scores").toList

def keyWordCount : List Char := ("word_count").toList

/-- The key `run_pipeline` probes for (`"insight_assessment" in result`,
execution_manager.py line 202). -/
def keyInsightAssessment : List Char := ("insight_assessment").toList

/-- The exact key set of the dict literal returned by
`run_full_pipeline` (crew.py lines 174-180). -/
def pipelineOutputKeys : List (List Char) :=
  [keyContent, keyResearch, keyInsightScores, keyWordCount]

/-- The success path of `run_full_pipeline` (crew.py lines 78-180) with
the stage calls abstracted as functions: write every section (the gather
preserves task order, so the in-order map is the gathered result), join
the bodies into the full draft, run the validator on the full draft, run
the editor on the draft truncated to 12000 characters, and return the
result dict. -/
def runFullPipeline (writerF : SectionSpec → SectionContent)
    (insightF : List Char → InsightAssessment) (editorF : List Char → EditedContent)
    (researchDump : List Char) (sections : List SectionSpec) : PipelineOutput :=
  let written := sections.map writerF
  let full_draft := joinBlankLine (written.map SectionContent.content)
  let insight_result := insightF full_draft
  let final_edit := editorF (full_draft.take 12000)
  ⟨final_edit.final_content, researchDump, insight_result, final_edit.word_count⟩

/-- The `Draft` row fields set by `run_pipeline` (execution_manager.py
lines 181-193). -/
structure DraftRow where
  project_id : List Char
  content_markdown : List Char
  word_count : Nat
  version : Nat
  is_current : Bool
  is_approved : Bool
deriving DecidableEq

/-- The database and state effects of `run_pipeline`'s success epilogue
(execution_manager.py lines 168-243). -/
structure SaveResult where
  draft : DraftRow
  insightRowsCreated : Nat
  projectStatus : ProjectStatus
  execStatus : List Char
  progress : Nat
  is_complete : Bool
deriving DecidableEq

/-- `run_pipeline`'s draft-saving epilogue (execution_manager.py lines
168-243): the draft's word count is recomputed as
`len(result["content"].split())`; the version is the previous current
draft's version plus one, or 1 if none exists; an `InsightScore` row is
created only under `if "insight_assessment" in result`, a key the
pipeline's result dict never contains; the project row and execution
state become `draft_ready`, progress 100, complete. -/
def runPipelineSave (pid : List Char) (existing : Option DraftRow) (out : PipelineOutput) :
    SaveResult :=
  { draft :=
      { project_id := pid
        content_markdown := out.content
        word_count := countWords out.content
        version := match existing with
          | some d => d.version + 1
          | none => 1
        is_current := true
        is_approved := false }
    insightRowsCreated := if pipelineOutputKeys.contains keyInsightAssessment then 1 else 0
    projectStatus := ProjectStatus.draft_ready
    execStatus := statusDraftReady
    progress := 100
    is_complete := true }

/- Concrete inputs exercising the C1 scenario: a first run (no existing
draft) over a project with three outline sections whose writer outputs
report word counts 100, 200 and 300, and whose editor returns a four-word
final text. -/

def c1Sections : List SectionSpec :=
  [⟨("Intro").toList, [], 100, 1⟩, ⟨("Body").toList, [], 200, 2⟩, ⟨("End").toList, [], 300, 3⟩]

def c1Writer : SectionSpec → SectionContent :=
  fun s => ⟨s.heading, s.heading ++ (" text").toList, s.estimated_words, []⟩

def c1Editor : List Char → EditedContent :=
  fun _ => ⟨("Short final content here").toList, [], 23⟩

def c1Insight : List Char → InsightAssessment :=
  fun _ => ⟨80, 80, 80, 80, 80, 80, 80, [], [], []⟩

def c1Out : PipelineOutput := runFullPipeline c1Writer c1Insight c1Editor [] c1Sections

/-- The backtick character, written by code point. -/
def btick : Char := Char.ofNat 96

/-- Does the remainder after the candidate group close with the fence's
closing delimiter, i.e. match `\s*` followed by three backticks? Because
a backtick is not whitespace, the greedy-with-backtracking `\s*` of the
regex succeeds exactly when the maximal whitespace run is followed by
three backticks. -/
def closeFenceCore : List Char → Bool
  | a :: b :: c :: _ => a = btick && b = btick && c = btick
  | _ => false

/-- See `closeFenceCore`: the whitespace is skipped first. -/
def closeFence (s : List Char) : Bool :=
  closeFenceCore (s.dropWhile isWs)

/-- The lazy group `(\{.*?\})` of the fence regex
(parsing.py line 14): starting inside the braces, extend the group one
character at a time, succeeding at the first `}` after which the closing
fence matches. `acc` holds the group text accumulated so far. -/
def lazyGroup (acc : List Char) : List Char → Option (List Char)
  | [] => none
  | c :: rest =>
    if c = '}' && closeFence rest then some (acc ++ ['}'])
    else lazyGroup (acc ++ [c]) rest

/-- After the backticks and the optional tag: the greedy `\s*` must stop
exactly at a `{` (the regex's `\{` can only match there), then the lazy
group runs. -/
def fenceBody (rest2 : List Char) : Option (List Char) :=
  match rest2.dropWhile isWs with
  | '{' :: body => lazyGroup ['{'] body
  | _ => none

/-- The optional `(?:json)?` tag after the backticks: it is deterministic
because when `json` follows, the non-consuming alternative would need a
`{` at the position of the `j`, and when it does not, the consuming
alternative cannot match at all. -/
def fenceTag (rest : List Char) : Option (List Char) :=
  fenceBody (if (['j', 's', 'o', 'n'] : List Char).isPrefixOf rest then rest.drop 4 else rest)

/-- Match of the fenced-block regex anchored at the start of `s`:
three backticks, the optional literal `json` tag, `\s*`, then the lazy
`\{.*?\}` group, whose closing condition is checked by `lazyGroup`. -/
def fenceAt (s : List Char) : Option (List Char) :=
  match s with
  | a :: b :: c :: rest =>
    if a = btick ∧ b = btick ∧ c = btick then fenceTag rest else none
  | _ => none

/-- `re.search` of the fence pattern: try every start position from the
left, returning the group of the first successful match. -/
def fenceSearch : List Char → Option (List Char)
  | [] => none
  | c :: rest =>
    match fenceAt (c :: rest) with
    | some g => some g
    | none => fenceSearch rest

/-- Python `str.find` for a single character: index of the first
occurrence, or `none` for the source's -1. -/
def pyFind (s : List Char) (c : Char) : Option Nat :=
  match s with
  | [] => none
  | x :: rest => if x = c then some 0 else (pyFind rest c).map (· + 1)

/-- Python `str.rfind` for a single character: index of the last
occurrence, or `none` for the source's -1. -/
def pyRFind (s : List Char) (c : Char) : Option Nat :=
  match pyFind s.reverse c with
  | none => none
  | some i => some (s.length - 1 - i)

/-- `extract_json_from_text` (parsing.py lines 9-30): strip the text,
prefer the fenced-block regex group, else the span from the first `{` to
the last `}` when the first `{` precedes the last `}`, else return the
stripped text unchanged. -/
def extract_json_from_text (text : List Char) : List Char :=
  match fenceSearch (pyStrip text) with
  | some g => g
  | none =>
    match pyFind (pyStrip text) '{', pyRFind (pyStrip text) '}' with
    | some st, some en =>
      if st < en then ((pyStrip text).drop st).take (en + 1 - st) else pyStrip text
    | some _, none => pyStrip text
    | none, _ => pyStrip text

/-- JSON values as produced by `json.loads`; numbers keep their raw
lexeme (no floating point is needed by any claim). -/
inductive JVal where
  | null
  | bool (b : Bool)
  | num (raw : List Char)
  | str (s : List Char)
  | arr (xs : List JVal)
  | obj (fields : List (List Char × JVal))

/-- Value of one hexadecimal digit. -/
def hexDigit (c : Char) : Option Nat :=
  if '0' ≤ c ∧ c ≤ '9' then some (c.toNat - 48)
  else if 'a' ≤ c ∧ c ≤ 'f' then some (c.toNat - 87)
  else if 'A' ≤ c ∧ c ≤ 'F' then some (c.toNat - 55)
  else none

/-- JSON string escapes other than `\u`. -/
def escChar (c : Char) : Option Char :=
  if c = '"' then some '"'
  else if c = '\\' then some '\\'
  else if c = '/' then some '/'
  else if c = 'b' then some (Char.ofNat 8)
  else if c = 'f' then some (Char.ofNat 12)
  else if c = 'n' then some '\n'
  else if c = 'r' then some '\r'
  else if c = 't' then some '\t'
  else none

/-- JSON string literal body, entered after the opening quote: plain
characters (control characters below 0x20 are rejected, as in strict
`json.loads`), the eight simple escapes, and `\uXXXX` escapes. (Unlike
CPython we do not combine surrogate pairs; this affects only the decoded
content of exotic strings, never whether parsing succeeds.) Returns the
decoded content and the remainder after the closing quote. -/
def parseStringBody : Nat → List Char → List Char → Option (List Char × List Char)
  | 0, _, _ => none
  | _ + 1, _, [] => none
  | f + 1, acc, c :: rest =>
    if c = '"' then some (acc, rest)
    else if c = '\\' then
      match rest with
      | 'u' :: h1 :: h2 :: h3 :: h4 :: rest3 => do
          let a ← hexDigit h1
          let b ← hexDigit h2
          let c4 ← hexDigit h3
          let d ← hexDigit h4
          parseStringBody f (acc ++ [Char.ofNat (((a * 16 + b) * 16 + c4) * 16 + d)]) rest3
      | 'u' :: _ => none
      | e :: rest2 => do
          let ch ← escChar e
          parseStringBody f (acc ++ [ch]) rest2
      | [] => none
    else if c.toNat < 32 then none
    else parseStringBody f (acc ++ [c]) rest

/-- Maximal run of ASCII digits. -/
def takeDigits : List Char → List Char × List Char
  | [] => ([], [])
  | c :: rest =>
    if c.isDigit then (c :: (takeDigits rest).1, (takeDigits rest).2)
    else ([], c :: rest)

/-- JSON integer part: `0` or a nonzero digit followed by digits. -/
def parseIntPart (s : List Char) : Option (List Char × List Char) :=
  match s with
  | [] => none
  | c :: rest =>
    if c = '0' then some ([c], rest)
    else if c.isDigit then some (c :: (takeDigits rest).1, (takeDigits rest).2)
    else none

/-- One-or-more digits after an exponent marker (and optional sign). -/
def parseExpDigits (pre : List Char) (r1 : List Char) : Option (List Char × List Char) :=
  if (takeDigits r1).1.isEmpty then none
  else some (pre ++ (takeDigits r1).1, (takeDigits r1).2)

/-- Optional sign, then the mandatory digits, after an exponent
marker. -/
def parseExpSign (pre : List Char) : List Char → Option (List Char × List Char)
  | d :: rr =>
    if d = '+' ∨ d = '-' then parseExpDigits (pre ++ [d]) rr
    else parseExpDigits pre (d :: rr)
  | [] => parseExpDigits pre []

/-- Optional exponent part of a JSON number, given the lexeme parsed so
far. -/
def parseExpPart (pre : List Char) : List Char → Option (List Char × List Char)
  | c :: rest =>
    if c = 'e' ∨ c = 'E' then parseExpSign (pre ++ [c]) rest
    else some (pre, c :: rest)
  | [] => some (pre, [])

/-- Optional fraction then optional exponent, after the integer part
`negip` of the lexeme. -/
def parseNumTail (negip : List Char) (s2 : List Char) : Option (List Char × List Char) :=
  match s2 with
  | c :: rest =>
    if c = '.' then
      if (takeDigits rest).1.isEmpty then none
      else parseExpPart (negip ++ [c] ++ (takeDigits rest).1) (takeDigits rest).2
    else parseExpPart negip s2
  | [] => some (negip, [])

/-- JSON number grammar `-?(0|[1-9][0-9]*)(\.[0-9]+)?([eE][+-]?[0-9]+)?`,
returning the raw lexeme and the remainder. -/
def parseNumber (s : List Char) : Option (List Char × List Char) :=
  match s with
  | [] => none
  | c :: rest =>
    if c = '-' then
      match parseIntPart rest with
      | none => none
      | some (ip, s2) => parseNumTail (['-'] ++ ip) s2
    else
      match parseIntPart s with
      | none => none
      | some (ip, s2) => parseNumTail ip s2

/-- Skip whitespace and expect a colon (the key/value separator). -/
def expectColon (s : List Char) : Option (List Char) :=
  match s.dropWhile isWs with
  | ':' :: r => some r
  | _ => none

/-- One JSON value, dispatching on the first non-whitespace character;
the object, array and string sub-parsers are passed in. -/
def parseValueStep (pObj : List Char → Option (List (List Char × JVal) × List Char))
    (pArr : List Char → Option (List JVal × List Char))
    (pStr : List Char → Option (List Char × List Char))
    (s : List Char) : Option (JVal × List Char) :=
  match s.dropWhile isWs with
  | '{' :: rest => do
      let (fs, r) ← pObj rest
      some (JVal.obj fs, r)
  | '[' :: rest => do
      let (xs, r) ← pArr rest
      some (JVal.arr xs, r)
  | '"' :: rest => do
      let (cs, r) ← pStr rest
      some (JVal.str cs, r)
  | 't' :: 'r' :: 'u' :: 'e' :: rest => some (JVal.bool true, rest)
  | 'f' :: 'a' :: 'l' :: 's' :: 'e' :: rest => some (JVal.bool false, rest)
  | 'n' :: 'u' :: 'l' :: 'l' :: rest => some (JVal.null, rest)
  | other => do
      let (raw, r) ← parseNumber other
      some (JVal.num raw, r)

/-- One `"key": value` object member starting right after the key's
opening quote, followed by the rest of the members. -/
def parseObjMember (pStr : List Char → Option (List Char × List Char))
    (pVal : List Char → Option (JVal × List Char))
    (pTail : List Char → Option (List (List Char × JVal) × List Char))
    (r0 : List Char) : Option (List (List Char × JVal) × List Char) := do
  let (key, r1) ← pStr r0
  let r3 ← expectColon r1
  let (v, r4) ← pVal r3
  let (fs, r5) ← pTail r4
  some ((key, v) :: fs, r5)

/-- Object members after the opening `{`: empty object or first member
then the tail parser. -/
def parseObjBodyStep (pStr : List Char → Option (List Char × List Char))
    (pVal : List Char → Option (JVal × List Char))
    (pTail : List Char → Option (List (List Char × JVal) × List Char))
    (s : List Char) : Option (List (List Char × JVal) × List Char) :=
  match s.dropWhile isWs with
  | '}' :: rest => some ([], rest)
  | '"' :: rest => parseObjMember pStr pVal pTail rest
  | _ => none

/-- After one object member: either the closing `}` or a comma and the
next member (no trailing comma, as in `json.loads`). -/
def parseObjTailStep (pStr : List Char → Option (List Char × List Char))
    (pVal : List Char → Option (JVal × List Char))
    (pTail : List Char → Option (List (List Char × JVal) × List Char))
    (s : List Char) : Option (List (List Char × JVal) × List Char) :=
  match s.dropWhile isWs with
  | '}' :: rest => some ([], rest)
  | ',' :: rest =>
    match rest.dropWhile isWs with
    | '"' :: r0 => parseObjMember pStr pVal pTail r0
    | _ => none
  | _ => none

/-- One array element followed by the rest of the elements. -/
def parseArrElems (pVal : List Char → Option (JVal × List Char))
    (pTail : List Char → Option (List JVal × List Char))
    (s1 : List Char) : Option (List JVal × List Char) := do
  let (v, r1) ← pVal s1
  let (xs, r2) ← pTail r1
  some (v :: xs, r2)

/-- Array elements after the opening `[`. -/
def parseArrBodyStep (pVal : List Char → Option (JVal × List Char))
    (pTail : List Char → Option (List JVal × List Char))
    (s : List Char) : Option (List JVal × List Char) :=
  match s.dropWhile isWs with
  | ']' :: rest => some ([], rest)
  | _ => parseArrElems pVal pTail (s.dropWhile isWs)

/-- After one array element: either the closing `]` or a comma and the
next element. -/
def parseArrTailStep (pVal : List Char → Option (JVal × List Char))
    (pTail : List Char → Option (List JVal × List Char))
    (s : List Char) : Option (List JVal × List Char) :=
  match s.dropWhile isWs with
  | ']' :: rest => some ([], rest)
  | ',' :: rest => parseArrElems pVal pTail rest
  | _ => none

mutual

/-- Recursive-descent JSON value parser mirroring `json.loads` on
standard JSON (we deliberately omit CPython's non-standard
`NaN`/`Infinity` extension, which no stage output legitimately uses).
`fuel` bounds the recursion depth; `jsonLoads` supplies enough for any
input. Returns the value and the unconsumed remainder. -/
def parseValue : Nat → List Char → Option (JVal × List Char)
  | 0, _ => none
  | fuel + 1, s =>
    parseValueStep (parseObjBody fuel) (parseArrBody fuel) (parseStringBody fuel []) s

/-- See `parseObjBodyStep`. -/
def parseObjBody : Nat → List Char → Option (List (List Char × JVal) × List Char)
  | 0, _ => none
  | fuel + 1, s =>
    parseObjBodyStep (parseStringBody fuel []) (parseValue fuel) (parseObjTail fuel) s

/-- See `parseObjTailStep`. -/
def parseObjTail : Nat → List Char → Option (List (List Char × JVal) × List Char)
  | 0, _ => none
  | fuel + 1, s =>
    parseObjTailStep (parseStringBody fuel []) (parseValue fuel) (parseObjTail fuel) s

/-- See `parseArrBodyStep`. -/
def parseArrBody : Nat → List Char → Option (List JVal × List Char)
  | 0, _ => none
  | fuel + 1, s => parseArrBodyStep (parseValue fuel) (parseArrTail fuel) s

/-- See `parseArrTailStep`. -/
def parseArrTail : Nat → List Char → Option (List JVal × List Char)
  | 0, _ => none
  | fuel + 1, s => parseArrTailStep (parseValue fuel) (parseArrTail fuel) s

end

/-- `json.loads`: parse one value and require that only whitespace
remains. The fuel `2 * length + 2` exceeds any possible recursion depth
(every two fuel units consume at least one character). -/
def jsonLoads (s : List Char) : Option JVal :=
  match parseValue (2 * s.length + 2) s with
  | some (v, rest) => if (rest.dropWhile isWs).isEmpty then some v else none
  | none => none

/-- A concrete model response: prose, then a `json`-tagged fenced code
block holding the object `{"a": 1}`, then more prose. -/
def c4SampleText : List Char :=
  ['s', 'e', 'e', ':', ' '] ++ btick :: btick :: btick ::
    (['j', 's', 'o', 'n'] ++ ['\n'] ++ ('{' :: (['"', 'a', '"', ':', ' ', '1'] ++ '}' ::
      (['\n'] ++ btick :: btick :: btick :: [' ', 'o', 'k']))))

/-- The data carried by the `OutputParserException` raised by
`parse_with_pydantic` (parsing.py line 40): the schema's name and the
truncated `text[:500]` snippet embedded in the message. -/
structure ParseError where
  schemaName : List Char
  snippet : List Char
deriving DecidableEq

/-- `parse_with_pydantic` (parsing.py lines 32-40): extract a JSON
string, `json.loads` it, then build the pydantic model from the object's
fields. The pydantic construction `model_class(**data)` is abstracted by
`validate`, which returns `none` exactly when a required field is missing
or mistyped; non-object values make `model_class(**data)` raise, and
every failure of any step is caught and re-raised as a `ParseError`
carrying the schema name and the first 500 characters of the offending
text. -/
def parse_with_pydantic {T : Type} (validate : List (List Char × JVal) → Option T)
    (schemaName : List Char) (text : List Char) : Except ParseError T :=
  match jsonLoads (extract_json_from_text text) with
  | some (JVal.obj fs) =>
    match validate fs with
    | some t => Except.ok t
    | none => Except.error ⟨schemaName, text.take 500⟩
  | some _ => Except.error ⟨schemaName, text.take 500⟩
  | none => Except.error ⟨schemaName, text.take 500⟩

end DeepScribe

namespace DeepScribe

/-- One-step unfolding of the retry loop on a rate-limited attempt that
still has retry budget. -/
theorem invokeWithRetryAux_rateLimited_step (outcomes : Nat → CallOutcome)
    (maxRetries baseDelay maxDelay attempt retries : Nat) (waits : List Nat) (e : Nat)
    (ho : outcomes attempt = .rateLimited e) (hr : ¬ maxRetries < retries + 1) :
    invokeWithRetryAux outcomes maxRetries baseDelay maxDelay attempt retries waits =
      invokeWithRetryAux outcomes maxRetries baseDelay maxDelay (attempt + 1) (retries + 1)
        (waits ++ [min (baseDelay * (retries + 1)) maxDelay]) := by
  rw [invokeWithRetryAux, ho]
  simp [hr]

/-- One-step unfolding of the retry loop on a rate-limited attempt with
exhausted retry budget: the last rate-limit error is re-raised. -/
theorem invokeWithRetryAux_rateLimited_raise (outcomes : Nat → CallOutcome)
    (maxRetries baseDelay maxDelay attempt retries : Nat) (waits : List Nat) (e : Nat)
    (ho : outcomes attempt = .rateLimited e) (hr : maxRetries < retries + 1) :
    invokeWithRetryAux outcomes maxRetries baseDelay maxDelay attempt retries waits =
      ⟨.error e, attempt + 1, waits⟩ := by
  rw [invokeWithRetryAux, ho]
  simp [hr]

/-- C2: for a sequence of consecutive rate-limit failures,
`invoke_with_retry` sleeps `min(10*n, 60)` seconds before retry `n`
(concretely 10, 20, 30, 40, 50 - non-decreasing and below the 60s cap),
attempts the wrapped call exactly 6 times (1 initial + 5 retries), and
re-raises the rate-limit error of the last attempt. -/
theorem invoke_with_retry_rate_limit_backoff (outcomes : Nat → CallOutcome) (es : Nat → Nat)
    (h : ∀ k, k < 6 → outcomes k = .rateLimited (es k)) :
    invoke_with_retry outcomes = ⟨.error (es 5), 6, [10, 20, 30, 40, 50]⟩ ∧
    (∀ n, n < (invoke_with_retry outcomes).waits.length →
      (invoke_with_retry outcomes).waits[n]? = some (min (10 * (n + 1)) 60)) ∧
    (invoke_with_retry outcomes).waits.Chain' (· ≤ ·) ∧
    (∀ w ∈ (invoke_with_retry outcomes).waits, w ≤ 60) := by
  have hmain : invoke_with_retry outcomes = ⟨.error (es 5), 6, [10, 20, 30, 40, 50]⟩ := by
    rw [invoke_with_retry]
    rw [invokeWithRetryAux_rateLimited_step outcomes 5 10 60 0 0 [] (es 0) (h 0 (by omega))
      (by omega)]
    rw [invokeWithRetryAux_rateLimited_step outcomes 5 10 60 1 1 _ (es 1) (h 1 (by omega))
      (by omega)]
    rw [invokeWithRetryAux_rateLimited_step outcomes 5 10 60 2 2 _ (es 2) (h 2 (by omega))
      (by omega)]
    rw [invokeWithRetryAux_rateLimited_step outcomes 5 10 60 3 3 _ (es 3) (h 3 (by omega))
      (by omega)]
    rw [invokeWithRetryAux_rateLimited_step outcomes 5 10 60 4 4 _ (es 4) (h 4 (by omega))
      (by omega)]
    rw [invokeWithRetryAux_rateLimited_raise outcomes 5 10 60 5 5 _ (es 5) (h 5 (by omega))
      (by omega)]
    rfl
  refine ⟨hmain, ?_, ?_, ?_⟩
  · rw [hmain]
    intro n hn
    have hn5 : n < 5 := by simpa using hn
    interval_cases n <;> rfl
  · rw [hmain]
    show List.Chain' (· ≤ ·) [10, 20, 30, 40, 50]
    norm_num [List.chain'_cons, List.chain'_singleton]
  · rw [hmain]
    show ∀ w ∈ [(10 : Nat), 20, 30, 40, 50], w ≤ 60
    decide

/-- Closed witness for the C2 theorem at a concrete all-rate-limited
outcome stream. -/
theorem invoke_with_retry_rate_limit_backoff_witness :
    invoke_with_retry (fun _ => .rateLimited 3) = ⟨.error 3, 6, [10, 20, 30, 40, 50]⟩ :=
  (invoke_with_retry_rate_limit_backoff (fun _ => .rateLimited 3) (fun _ => 3)
    (fun _ _ => rfl)).1

/-- C5 counterexample: the message "failed to complete" contains the
keyword "fail", yet `on_progress` classifies it as `success`, not
`error`, because the "complete"/"finished" test runs first
(execution_manager.py lines 85-89). So "presence of error/fail yields
error level" is false as stated. -/
theorem classifyProgressLevel_fail_keyword_counterexample :
    containsSub (toLowerList msgFailedToComplete) kwFail = true ∧
    classifyProgressLevel msgFailedToComplete = lvlSuccess ∧
    classifyProgressLevel msgFailedToComplete ≠ lvlError := by
  refine ⟨by decide, by decide, by decide⟩

/-- C5 amended: the progress callback classifies a message by keyword
matching on its lower-cased text, with the success keywords taking
priority: presence of "complete" or "finished" yields `success`;
otherwise presence of "error" or "fail" yields `error`; otherwise the
level is `info`. -/
theorem classifyProgressLevel_keyword_priority (m : List Char) :
    ((containsSub (toLowerList m) kwComplete || containsSub (toLowerList m) kwFinished) = true →
      classifyProgressLevel m = lvlSuccess) ∧
    ((containsSub (toLowerList m) kwComplete || containsSub (toLowerList m) kwFinished) = false →
      (containsSub (toLowerList m) kwError || containsSub (toLowerList m) kwFail) = true →
      classifyProgressLevel m = lvlError) ∧
    ((containsSub (toLowerList m) kwComplete || containsSub (toLowerList m) kwFinished) = false →
      (containsSub (toLowerList m) kwError || containsSub (toLowerList m) kwFail) = false →
      classifyProgressLevel m = lvlInfo) := by
  refine ⟨fun h => ?_, fun h1 h2 => ?_, fun h1 h2 => ?_⟩ <;>
    simp [classifyProgressLevel, *]

/-- Closed witness for the amended C5 theorem at the concrete message
"failed to complete". -/
theorem classifyProgressLevel_keyword_priority_witness :
    classifyProgressLevel msgFailedToComplete = lvlSuccess :=
  (classifyProgressLevel_keyword_priority msgFailedToComplete).1 (by decide)

/-- `addLogEntry` always equals "keep the last 100 entries of the
appended list" thanks to truncated subtraction. -/
theorem addLogEntry_eq_drop (logs : List AgentLog) (e : AgentLog) :
    addLogEntry logs e = (logs ++ [e]).drop ((logs ++ [e]).length - 100) := by
  show (if (logs ++ [e]).length > 100
      then (logs ++ [e]).drop ((logs ++ [e]).length - 100)
      else logs ++ [e]) = (logs ++ [e]).drop ((logs ++ [e]).length - 100)
  by_cases h : (logs ++ [e]).length > 100
  · rw [if_pos h]
  · rw [if_neg h]
    have h0 : (logs ++ [e]).length - 100 = 0 := by omega
    rw [h0, List.drop_zero]

/-- Folding `addLogEntry` from any starting list of at most 100 entries
retains exactly the most recent 100 entries of the whole appended
sequence. -/
theorem foldl_addLogEntry_eq (es : List AgentLog) :
    ∀ logs : List AgentLog, logs.length ≤ 100 →
      List.foldl addLogEntry logs es = (logs ++ es).drop ((logs ++ es).length - 100) := by
  induction es with
  | nil =>
    intro logs h
    simp only [List.foldl_nil, List.append_nil]
    have h0 : logs.length - 100 = 0 := by omega
    rw [h0, List.drop_zero]
  | cons e es ih =>
    intro logs h
    rw [List.foldl_cons, addLogEntry_eq_drop]
    set l := logs ++ [e] with hl
    have hlen1 : l.length ≤ 101 := by rw [hl, List.length_append]; simp; omega
    set k := l.length - 100 with hkdef
    set x := l.drop k with hx
    have hxlen2 : x.length = l.length - k := by rw [hx, List.length_drop]
    have hxlen : x.length ≤ 100 := by omega
    rw [ih x hxlen]
    have hassoc : logs ++ e :: es = l ++ es := by rw [hl]; simp
    rw [hassoc]
    have hk : k ≤ l.length := by omega
    have hlx : (l ++ es).length = l.length + es.length := List.length_append l es
    have hxe : (x ++ es).length = x.length + es.length := List.length_append x es
    have harith : (l ++ es).length - 100 = k + ((x ++ es).length - 100) := by omega
    rw [harith, ← List.drop_drop, List.drop_append_of_le_length hk, ← hx]

/-- C7: after more than 100 log events have been appended within one run
(starting from an initial log list of at most 100 entries, as
`start_execution` creates), the retained log list has length exactly 100
and is precisely the suffix of the 100 most recent entries of the full
appended sequence, in chronological order. -/
theorem addLog_ring_buffer (init es : List AgentLog)
    (hinit : init.length ≤ 100) (hover : 100 < init.length + es.length) :
    (List.foldl addLogEntry init es).length = 100 ∧
    List.foldl addLogEntry init es = (init ++ es).drop ((init.length + es.length) - 100) := by
  have hm := foldl_addLogEntry_eq es init hinit
  constructor
  · rw [hm, List.length_drop, List.length_append]
    omega
  · rw [hm, List.length_append]

/-- Closed witness for the C7 theorem: 101 events folded into an empty
initial list retain exactly the last 100. -/
theorem addLog_ring_buffer_witness :
    (List.foldl addLogEntry [] (List.replicate 101 dummyLog)).length = 100 ∧
    List.foldl addLogEntry [] (List.replicate 101 dummyLog) =
      (([] : List AgentLog) ++ List.replicate 101 dummyLog).drop
        ((([] : List AgentLog).length + (List.replicate 101 dummyLog).length) - 100) :=
  addLog_ring_buffer [] (List.replicate 101 dummyLog) (by simp) (by simp)

/-- Unfolding `countKey` over a cons cell. -/
theorem countKey_cons {α : Type} (k' : List Char) (v' : α) (rest : List (List Char × α))
    (k : List Char) :
    countKey ((k', v') :: rest) k = (if (k' == k) = true then 1 else 0) + countKey rest k := by
  by_cases h : (k' == k) = true <;> simp [countKey, List.filter_cons, h] <;> omega

/-- Unfolding `countKey` over the empty map. -/
theorem countKey_nil {α : Type} (k : List Char) : countKey ([] : List (List Char × α)) k = 0 :=
  rfl

/-- Inserting under a key leaves the entry count of every other key
unchanged. -/
theorem countKey_insertKey_ne {α : Type} (m : List (List Char × α)) (k₀ k : List Char)
    (v : α) (h : k ≠ k₀) : countKey (insertKey m k₀ v) k = countKey m k := by
  have hne : ¬ (k₀ == k) = true := by simpa using fun he => h he.symm
  induction m with
  | nil => simp [insertKey, countKey_cons, countKey_nil, hne]
  | cons p rest ih =>
    obtain ⟨k', v'⟩ := p
    by_cases hk : k' = k₀
    · subst hk
      simp [insertKey, countKey_cons, hne]
    · simp [insertKey, if_neg hk, countKey_cons, ih]

/-- Python dict assignment preserves "at most one entry per key". -/
theorem countKey_insertKey_le {α : Type} (m : List (List Char × α)) (k₀ k : List Char)
    (v : α) (h : countKey m k ≤ 1) : countKey (insertKey m k₀ v) k ≤ 1 := by
  induction m with
  | nil =>
    by_cases hk : (k₀ == k) = true <;> simp [insertKey, countKey_cons, countKey_nil, hk]
  | cons p rest ih =>
    obtain ⟨k', v'⟩ := p
    by_cases hk : k' = k₀
    · subst hk
      rw [countKey_cons] at h
      simp only [insertKey, eq_self_iff_true, if_true]
      rw [countKey_cons]
      omega
    · rw [countKey_cons] at h
      simp only [insertKey, if_neg hk]
      rw [countKey_cons]
      by_cases hkk : (k' == k) = true
      · have hke : k' = k := by simpa using hkk
        have hne : k ≠ k₀ := fun he => hk (hke.trans he)
        rw [countKey_insertKey_ne rest k₀ k v hne]
        omega
      · have hrest : countKey rest k ≤ 1 := by
          rw [if_neg hkk] at h
          omega
        have := ih hrest
        rw [if_neg hkk]
        omega

/-- C3: starting a run for a project that already has a registered task
emits, in program order, first the cancellation of the old task, then the
publication of the fresh ExecutionState, then the registration of the new
task - so the cancel strictly precedes the moment the new state becomes
visible in the state map. Moreover, after every prefix of these effects
the state map still holds at most one ExecutionState per project id. -/
theorem start_execution_single_flight (m : SupervisorState) (pid ts : List Char)
    (newTid tid : Nat) (htask : lookupKey m.tasks pid = some tid)
    (hwf : ∀ k, countKey m.states k ≤ 1) :
    startExecutionOps m pid ts newTid =
      [SupOp.cancelTask tid, SupOp.setState pid (restartingState pid ts),
        SupOp.spawnTask pid newTid] ∧
    (∀ i k, countKey (applyOps m ((startExecutionOps m pid ts newTid).take i)).states k ≤ 1) := by
  have hops : startExecutionOps m pid ts newTid =
      [SupOp.cancelTask tid, SupOp.setState pid (restartingState pid ts),
        SupOp.spawnTask pid newTid] := by
    simp [startExecutionOps, htask]
  refine ⟨hops, ?_⟩
  intro i k
  rw [hops]
  match i with
  | 0 => simpa [applyOps] using hwf k
  | 1 => simpa [applyOps, applyOp] using hwf k
  | 2 =>
    simp only [List.take, applyOps, List.foldl, applyOp]
    exact countKey_insertKey_le _ _ _ _ (hwf k)
  | n + 3 =>
    simp only [List.take, List.take_nil, applyOps, List.foldl, applyOp]
    exact countKey_insertKey_le _ _ _ _ (hwf k)

/-- Closed witness for the C3 theorem at a concrete supervisor state with
a registered running task. -/
theorem start_execution_single_flight_witness :
    startExecutionOps ⟨[], [(pidEx, 7)]⟩ pidEx [] 8 =
      [SupOp.cancelTask 7, SupOp.setState pidEx (restartingState pidEx []),
        SupOp.spawnTask pidEx 8] :=
  (start_execution_single_flight ⟨[], [(pidEx, 7)]⟩ pidEx [] 8 7 (by decide)
    (fun k => by simp [countKey])).1

/-- C10: when `run_pipeline` is invoked for a project id with no
registered ExecutionState, it creates a fresh default state, registers it
in the state map, and proceeds with exactly that state. -/
theorem run_pipeline_missing_state_fallback (states : List (List Char × ExecutionState))
    (pid : List Char) (h : lookupKey states pid = none) :
    (runPipelineGetState states pid).1 = initialExecutionState pid ∧
    lookupKey (runPipelineGetState states pid).2 pid = some (initialExecutionState pid) ∧
    lookupKey (runPipelineGetState states pid).2 pid = some (runPipelineGetState states pid).1 := by
  have hins : lookupKey (insertKey states pid (initialExecutionState pid)) pid =
      some (initialExecutionState pid) := by
    induction states with
    | nil => simp [insertKey, lookupKey]
    | cons p rest ih =>
      obtain ⟨k', v'⟩ := p
      by_cases hk : k' = pid
      · simp [insertKey, hk, lookupKey]
      · simp only [lookupKey, if_neg hk] at h
        simp [insertKey, hk, lookupKey, ih h]
  simp [runPipelineGetState, h, hins]

/-- Closed witness for the C10 theorem on the empty state map. -/
theorem run_pipeline_missing_state_fallback_witness :
    (runPipelineGetState [] pidEx).1 = initialExecutionState pidEx :=
  (run_pipeline_missing_state_fallback [] pidEx rfl).1

/-- C6 counterexample: on cooperative cancellation the ExecutionState
does become `failed` and complete, but `run_pipeline` attempts no
database write at all for the project status - the `CancelledError`
branch (execution_manager.py lines 245-249) only logs, mutates the
in-memory state and re-raises, while only the generic exception branch
(lines 250-269) updates the project row. So "the underlying project's
persisted status is also updated to failed" is false for cancellation. -/
theorem run_pipeline_cancel_no_db_write_counterexample :
    (runPipelineOutcomeEffects RunOutcome.cancelledSignal).status = statusFailed ∧
    (runPipelineOutcomeEffects RunOutcome.cancelledSignal).is_complete = true ∧
    (runPipelineOutcomeEffects RunOutcome.cancelledSignal).dbStatusWrite = none ∧
    (runPipelineOutcomeEffects RunOutcome.cancelledSignal).dbStatusWrite ≠
      some ProjectStatus.failed := by
  refine ⟨rfl, rfl, rfl, by decide⟩

/-- C6 amended: on every orchestrator failure the ExecutionState status
becomes `failed` and its completion flag is set; for non-cancellation
failures the project's persisted status is additionally updated to
`failed` best-effort, while on cooperative cancellation no database
status write is attempted and the cancellation is re-raised. -/
theorem run_pipeline_failure_effects (o : RunOutcome)
    (h : o = RunOutcome.cancelledSignal ∨ ∃ msg, o = RunOutcome.errored msg) :
    (runPipelineOutcomeEffects o).status = statusFailed ∧
    (runPipelineOutcomeEffects o).is_complete = true ∧
    ((∃ msg, o = RunOutcome.errored msg) →
      (runPipelineOutcomeEffects o).dbStatusWrite = some ProjectStatus.failed) ∧
    (o = RunOutcome.cancelledSignal →
      (runPipelineOutcomeEffects o).dbStatusWrite = none ∧
      (runPipelineOutcomeEffects o).reraised = true) := by
  rcases h with h | ⟨msg, h⟩ <;> subst h
  · refine ⟨rfl, rfl, fun hex => ?_, fun _ => ⟨rfl, rfl⟩⟩
    obtain ⟨m, hm⟩ := hex
    cases hm
  · refine ⟨rfl, rfl, fun _ => rfl, fun hc => ?_⟩
    cases hc

/-- Closed witness for the amended C6 theorem at the cancellation
outcome. -/
theorem run_pipeline_failure_effects_witness :
    (runPipelineOutcomeEffects RunOutcome.cancelledSignal).status = statusFailed :=
  (run_pipeline_failure_effects RunOutcome.cancelledSignal (Or.inl rfl)).1

/-- Slot contents after a sequence of completions: a slot holds its
task's result as soon as its index has completed, independently of the
completion order; untouched slots keep their previous content. -/
theorem fillSlots_getElem {α : Type} (results : List α) (sched : List Nat) :
    ∀ (slots : List (Option α)) (j : Nat),
      (fillSlots results sched slots)[j]? =
        if j ∈ sched ∧ j < slots.length then some results[j]? else slots[j]? := by
  induction sched with
  | nil =>
    intro slots j
    simp [fillSlots]
  | cons i rest ih =>
    intro slots j
    rw [fillSlots, ih]
    rw [List.length_set]
    by_cases hjr : j ∈ rest
    · by_cases hjl : j < slots.length
      · simp [hjr, hjl, List.mem_cons]
      · have h1 : slots.length ≤ j := by omega
        have h2 : (slots.set i results[i]?).length ≤ j := by
          rw [List.length_set]; omega
        simp [hjr, hjl, List.getElem?_eq_none h1, List.getElem?_eq_none h2]
    · by_cases hji : j = i
      · subst hji
        by_cases hjl : j < slots.length
        · simp [hjr, hjl, List.mem_cons, List.getElem?_set_self, hjl]
        · have h1 : slots.length ≤ j := by omega
          have h2 : (slots.set j results[j]?).length ≤ j := by
            rw [List.length_set]; omega
          simp [hjr, hjl, List.getElem?_eq_none h1, List.getElem?_eq_none h2]
      · have hset : (slots.set i results[i]?)[j]? = slots[j]? :=
          List.getElem?_set_ne (fun he => hji he.symm)
        have hnc : ¬ j ∈ i :: rest := by
          simp [List.mem_cons, hji, hjr]
        simp [hjr, hnc, hset]

/-- Gathering a permutation of completions yields exactly the results in
task order. -/
theorem gatherSchedule_eq {α : Type} (results : List α) (sched : List Nat)
    (hmem : ∀ i : Nat, i < results.length → i ∈ sched) :
    gatherSchedule results sched = results.map some := by
  apply List.ext_getElem?
  intro j
  rw [gatherSchedule, fillSlots_getElem]
  rw [List.length_replicate]
  by_cases hj : j < results.length
  · have hmap : (results.map some)[j]? = results[j]?.map some := List.getElem?_map some results j
    have hg : results[j]? = some results[j] := List.getElem?_eq_getElem hj
    rw [if_pos ⟨hmem j hj, hj⟩, hmap, hg]
    rfl
  · have h1 : results.length ≤ j := by omega
    have h2 : (results.map some).length ≤ j := by simpa using h1
    have h3 : (List.replicate results.length (none : Option α)).length ≤ j := by
      rw [List.length_replicate]; exact h1
    rw [if_neg (fun hc => hj hc.2), List.getElem?_eq_none h3, List.getElem?_eq_none h2]

/-- C9: for every completion order of the concurrent per-section writer
calls (any permutation of the task indices), the gathered results equal
the writer outputs in outline order (sections sorted by their `order`
field), hence the assembled full draft is the blank-line-separated
concatenation of the section bodies in outline order and the full word
count is the sum of the per-section word counts. -/
theorem run_full_pipeline_outline_order (sections : List SectionSpec)
    (writerF : SectionSpec → SectionContent) (sched : List Nat)
    (hperm : sched.Perm (List.range ((sortByOrder sections).map writerF).length)) :
    writtenSections sections writerF sched = (sortByOrder sections).map writerF ∧
    fullDraft sections writerF sched =
      joinBlankLine (((sortByOrder sections).map writerF).map SectionContent.content) ∧
    fullWordCount sections writerF sched =
      (((sortByOrder sections).map writerF).map SectionContent.word_count).sum := by
  have hmem : ∀ i : Nat, i < ((sortByOrder sections).map writerF).length → i ∈ sched := by
    intro i hi
    exact hperm.mem_iff.mpr (List.mem_range.mpr hi)
  have hw : writtenSections sections writerF sched = (sortByOrder sections).map writerF := by
    rw [writtenSections, gatherSchedule_eq _ _ hmem, List.filterMap_map]
    simp
  exact ⟨hw, by rw [fullDraft, hw], by rw [fullWordCount, hw]⟩

/-- Closed witness for the C9 theorem: two sections declared out of
`order`, with the second writer call completing before the first. -/
theorem run_full_pipeline_outline_order_witness :
    writtenSections [⟨['b'], [], 5, 2⟩, ⟨['a'], [], 7, 1⟩]
        (fun s => ⟨s.heading, s.heading, s.estimated_words, []⟩) [1, 0] =
      (sortByOrder [⟨['b'], [], 5, 2⟩, ⟨['a'], [], 7, 1⟩]).map
        (fun s => ⟨s.heading, s.heading, s.estimated_words, []⟩) :=
  (run_full_pipeline_outline_order [⟨['b'], [], 5, 2⟩, ⟨['a'], [], 7, 1⟩]
    (fun s => ⟨s.heading, s.heading, s.estimated_words, []⟩) [1, 0] (by decide)).1

/-- C1 (code bug): evaluating a fully successful 3-section first run.
The final state is `draft_ready` with version 1 as claimed, but zero
`InsightScore` rows are created - `run_pipeline` probes the result dict
for the key "insight_assessment" while `run_full_pipeline` returns the
key "insight_scores", so the save branch under `# 4. Save Insight Score`
is dead code - and the persisted word count is recomputed from the
editor's final content (here 4 words), not the sum 600 of the three
section word counts. -/
theorem run_pipeline_success_scenario_effects :
    pipelineOutputKeys.contains keyInsightAssessment = false ∧
    (runPipelineSave pidEx none c1Out).insightRowsCreated = 0 ∧
    (runPipelineSave pidEx none c1Out).execStatus = statusDraftReady ∧
    (runPipelineSave pidEx none c1Out).projectStatus = ProjectStatus.draft_ready ∧
    (runPipelineSave pidEx none c1Out).draft.version = 1 ∧
    (runPipelineSave pidEx none c1Out).is_complete = true ∧
    (runPipelineSave pidEx none c1Out).draft.word_count = 4 ∧
    ((c1Sections.map c1Writer).map SectionContent.word_count).sum = 600 ∧
    (runPipelineSave pidEx none c1Out).draft.word_count ≠
      ((c1Sections.map c1Writer).map SectionContent.word_count).sum := by
  refine ⟨by decide, by decide, by decide, by decide, by decide, by decide, by decide, by decide,
    by decide⟩

/-- C8: `parse_with_pydantic` fails with a `ParseError` exactly when no
structured object can be parsed out of the text or the schema validation
rejects its fields; every such error carries the schema name and the
`text[:500]` snippet (at most 500 characters); and a successful parse is
always the validator's output on the parsed object - defaults are never
silently substituted for a failed parse. -/
theorem parse_with_pydantic_contract {T : Type} (validate : List (List Char × JVal) → Option T)
    (schemaName text : List Char) :
    ((∃ e, parse_with_pydantic validate schemaName text = Except.error e) ↔
      ¬ ∃ fs t, jsonLoads (extract_json_from_text text) = some (JVal.obj fs) ∧
        validate fs = some t) ∧
    (∀ e, parse_with_pydantic validate schemaName text = Except.error e →
      e.schemaName = schemaName ∧ e.snippet = text.take 500 ∧ e.snippet.length ≤ 500) ∧
    (∀ t, parse_with_pydantic validate schemaName text = Except.ok t →
      ∃ fs, jsonLoads (extract_json_from_text text) = some (JVal.obj fs) ∧
        validate fs = some t) := by
  have hsnip : (text.take 500).length ≤ 500 := by
    rw [List.length_take]; omega
  rcases hj : jsonLoads (extract_json_from_text text) with _ | v
  · refine ⟨⟨fun _ => ?_, fun _ => ?_⟩, fun e he => ?_, fun t ht => ?_⟩
    · rintro ⟨fs, t0, hfs, _⟩
      cases hfs
    · exact ⟨⟨schemaName, text.take 500⟩, by simp [parse_with_pydantic, hj]⟩
    · simp only [parse_with_pydantic, hj, Except.error.injEq] at he
      subst he
      exact ⟨rfl, rfl, hsnip⟩
    · simp [parse_with_pydantic, hj] at ht
  · cases v with
    | obj fs =>
      rcases hv : validate fs with _ | t0
      · refine ⟨⟨fun _ => ?_, fun _ => ?_⟩, fun e he => ?_, fun t ht => ?_⟩
        · rintro ⟨fs', t0', hfs', hv'⟩
          simp only [Option.some.injEq, JVal.obj.injEq] at hfs'
          subst hfs'
          rw [hv] at hv'
          cases hv'
        · exact ⟨⟨schemaName, text.take 500⟩, by simp [parse_with_pydantic, hj, hv]⟩
        · simp only [parse_with_pydantic, hj, hv, Except.error.injEq] at he
          subst he
          exact ⟨rfl, rfl, hsnip⟩
        · simp [parse_with_pydantic, hj, hv] at ht
      · refine ⟨⟨fun hex => ?_, fun hne => ?_⟩, fun e he => ?_, fun t ht => ?_⟩
        · obtain ⟨e, he⟩ := hex
          simp [parse_with_pydantic, hj, hv] at he
        · exact absurd ⟨fs, t0, rfl, hv⟩ hne
        · simp [parse_with_pydantic, hj, hv] at he
        · simp only [parse_with_pydantic, hj, hv, Except.ok.injEq] at ht
          subst ht
          exact ⟨fs, rfl, hv⟩
    | null =>
      refine ⟨⟨fun _ => ?_, fun _ => ?_⟩, fun e he => ?_, fun t ht => ?_⟩
      · rintro ⟨fs', t0', hfs', _⟩
        simp at hfs'
      · exact ⟨⟨schemaName, text.take 500⟩, by simp [parse_with_pydantic, hj]⟩
      · simp only [parse_with_pydantic, hj, Except.error.injEq] at he
        subst he
        exact ⟨rfl, rfl, hsnip⟩
      · simp [parse_with_pydantic, hj] at ht
    | bool b =>
      refine ⟨⟨fun _ => ?_, fun _ => ?_⟩, fun e he => ?_, fun t ht => ?_⟩
      · rintro ⟨fs', t0', hfs', _⟩
        simp at hfs'
      · exact ⟨⟨schemaName, text.take 500⟩, by simp [parse_with_pydantic, hj]⟩
      · simp only [parse_with_pydantic, hj, Except.error.injEq] at he
        subst he
        exact ⟨rfl, rfl, hsnip⟩
      · simp [parse_with_pydantic, hj] at ht
    | num raw =>
      refine ⟨⟨fun _ => ?_, fun _ => ?_⟩, fun e he => ?_, fun t ht => ?_⟩
      · rintro ⟨fs', t0', hfs', _⟩
        simp at hfs'
      · exact ⟨⟨schemaName, text.take 500⟩, by simp [parse_with_pydantic, hj]⟩
      · simp only [parse_with_pydantic, hj, Except.error.injEq] at he
        subst he
        exact ⟨rfl, rfl, hsnip⟩
      · simp [parse_with_pydantic, hj] at ht
    | str cs =>
      refine ⟨⟨fun _ => ?_, fun _ => ?_⟩, fun e he => ?_, fun t ht => ?_⟩
      · rintro ⟨fs', t0', hfs', _⟩
        simp at hfs'
      · exact ⟨⟨schemaName, text.take 500⟩, by simp [parse_with_pydantic, hj]⟩
      · simp only [parse_with_pydantic, hj, Except.error.injEq] at he
        subst he
        exact ⟨rfl, rfl, hsnip⟩
      · simp [parse_with_pydantic, hj] at ht
    | arr xs =>
      refine ⟨⟨fun _ => ?_, fun _ => ?_⟩, fun e he => ?_, fun t ht => ?_⟩
      · rintro ⟨fs', t0', hfs', _⟩
        simp at hfs'
      · exact ⟨⟨schemaName, text.take 500⟩, by simp [parse_with_pydantic, hj]⟩
      · simp only [parse_with_pydantic, hj, Except.error.injEq] at he
        subst he
        exact ⟨rfl, rfl, hsnip⟩
      · simp [parse_with_pydantic, hj] at ht

/-- Closed witness for the C8 theorem: a text holding no JSON object at
all produces the tagged, truncated error. -/
theorem parse_with_pydantic_contract_witness :
    ParseError.schemaName ⟨['M'], ['x', 'y']⟩ = ['M'] ∧
    ParseError.snippet ⟨['M'], ['x', 'y']⟩ = List.take 500 ['x', 'y'] ∧
    (ParseError.snippet ⟨['M'], ['x', 'y']⟩).length ≤ 500 :=
  (parse_with_pydantic_contract (fun _ => (some 0 : Option Nat)) ['M'] ['x', 'y']).2.1
    ⟨['M'], ['x', 'y']⟩ rfl

/-- Dropping whitespace runs straight through an all-whitespace prefix. -/
theorem dropWhile_ws_append (ws x : List Char) (h : ∀ c ∈ ws, isWs c) :
    (ws ++ x).dropWhile isWs = x.dropWhile isWs := by
  induction ws with
  | nil => rfl
  | cons w wsr ih =>
    have hw : isWs w = true := h w (List.mem_cons_self w wsr)
    simp only [List.cons_append, List.dropWhile_cons, hw, if_true]
    exact ih (fun c hc => h c (List.mem_cons_of_mem w hc))

/-- The closing-fence test succeeds on whitespace followed by three
backticks. -/
theorem closeFence_fence (ws2 post : List Char) (h : ∀ c ∈ ws2, isWs c) :
    closeFence (ws2 ++ btick :: btick :: btick :: post) = true := by
  unfold closeFence
  rw [dropWhile_ws_append _ _ h]
  have hbw : isWs btick = false := by decide
  rw [List.dropWhile_cons, hbw]
  simp [closeFenceCore]

/-- The closing-fence test fails when the first character it can see is
not a backtick. -/
theorem closeFenceCore_head_ne (c : Char) (l : List Char) (h : ¬ c = btick) :
    closeFenceCore (c :: l) = false := by
  rcases l with _ | ⟨x, _ | ⟨y, ys⟩⟩ <;> simp [closeFenceCore, h]

/-- The closing-fence test fails on any remainder that still starts with
backtick-free object text followed by the final `}`. -/
theorem closeFence_mid (b tail : List Char) (hb : btick ∉ b) :
    closeFence (b ++ '}' :: tail) = false := by
  unfold closeFence
  rw [List.dropWhile_append]
  by_cases he : (b.dropWhile isWs).isEmpty
  · simp only [he, if_true]
    have hw : isWs '}' = false := by decide
    rw [List.dropWhile_cons, hw]
    simp only [Bool.false_eq_true, if_false]
    exact closeFenceCore_head_ne '}' tail (by decide)
  · simp only [he, if_false]
    rcases hd : b.dropWhile isWs with _ | ⟨d, ds⟩
    · rw [hd] at he
      simp at he
    · have hdb : d ∈ b := by
        have hmem : d ∈ b.dropWhile isWs := by
          rw [hd]; exact List.mem_cons_self d ds
        exact (List.dropWhile_suffix isWs).subset hmem
      rw [List.cons_append]
      exact closeFenceCore_head_ne d (ds ++ '}' :: tail) (fun he' => hb (he' ▸ hdb))

/-- The lazy group scan returns exactly the fenced object: it cannot
stop early inside backtick-free object text, and stops at the final `}`
followed by whitespace and the closing fence. -/
theorem lazyGroup_exact (inner : List Char) :
    ∀ acc ws2 post : List Char, btick ∉ inner → (∀ c ∈ ws2, isWs c) →
      lazyGroup acc (inner ++ '}' :: (ws2 ++ btick :: btick :: btick :: post)) =
        some (acc ++ inner ++ ['}']) := by
  induction inner with
  | nil =>
    intro acc ws2 post _ hws
    rw [List.nil_append, lazyGroup]
    have hcf : closeFence (ws2 ++ btick :: btick :: btick :: post) = true :=
      closeFence_fence ws2 post hws
    simp [hcf]
  | cons c cs ih =>
    intro acc ws2 post hbt hws
    rw [List.cons_append, lazyGroup]
    have hcond : (decide (c = '}') &&
        closeFence (cs ++ '}' :: (ws2 ++ btick :: btick :: btick :: post))) = false := by
      by_cases hc : c = '}'
      · rw [closeFence_mid cs _ (fun h => hbt (List.mem_cons_of_mem c h))]
        simp
      · simp [hc]
    rw [hcond]
    simp only [Bool.false_eq_true, if_false]
    rw [ih (acc ++ [c]) ws2 post (fun h => hbt (List.mem_cons_of_mem c h)) hws]
    simp

/-- The `json` tag cannot be a prefix of whitespace followed by the
object's brace. -/
theorem json_not_prefix (ws1 x : List Char) (hws1 : ∀ c ∈ ws1, isWs c) :
    (['j', 's', 'o', 'n'] : List Char).isPrefixOf (ws1 ++ '{' :: x) = false := by
  cases ws1 with
  | nil => simp [List.isPrefixOf]
  | cons w ws =>
    have hw : isWs w = true := hws1 w (List.mem_cons_self w ws)
    have hne : ('j' == w) = false := by
      cases hj : ('j' == w)
      · rfl
      · exfalso
        have : 'j' = w := by simpa using hj
        rw [← this] at hw
        simp [isWs] at hw
    simp [List.isPrefixOf, hne]

/-- When the whitespace run ends at the object's `{`, `fenceBody` runs
the lazy group on the object's tail. -/
theorem fenceBody_eq (rest2 body : List Char) (h : rest2.dropWhile isWs = '{' :: body) :
    fenceBody rest2 = lazyGroup ['{'] body := by
  rw [fenceBody, h]
  rfl

/-- The fence matcher anchored exactly at a well-formed fenced object
returns exactly the object's text. -/
theorem fenceAt_fence (tag ws1 inner ws2 post : List Char)
    (htag : tag = [] ∨ tag = ['j', 's', 'o', 'n'])
    (hws1 : ∀ c ∈ ws1, isWs c) (hws2 : ∀ c ∈ ws2, isWs c) (hbt : btick ∉ inner) :
    fenceAt (btick :: btick :: btick ::
      (tag ++ ws1 ++ ('{' :: (inner ++ '}' :: (ws2 ++ btick :: btick :: btick :: post))))) =
      some ('{' :: (inner ++ ['}'])) := by
  have hlz := lazyGroup_exact inner ['{'] ws2 post hbt hws2
  have hw : isWs '{' = false := by decide
  have hdw : (ws1 ++ ('{' :: (inner ++ '}' ::
      (ws2 ++ btick :: btick :: btick :: post)))).dropWhile isWs =
      '{' :: (inner ++ '}' :: (ws2 ++ btick :: btick :: btick :: post)) := by
    rw [dropWhile_ws_append ws1 _ hws1, List.dropWhile_cons, hw]
    simp
  have hstep : fenceAt (btick :: btick :: btick ::
      (tag ++ ws1 ++ ('{' :: (inner ++ '}' :: (ws2 ++ btick :: btick :: btick :: post))))) =
      fenceTag (tag ++ ws1 ++ ('{' :: (inner ++ '}' ::
        (ws2 ++ btick :: btick :: btick :: post)))) := by
    rw [fenceAt, if_pos ⟨rfl, rfl, rfl⟩]
  rw [hstep]
  rcases htag with rfl | rfl
  · have hjp : (['j', 's', 'o', 'n'] : List Char).isPrefixOf
        (([] : List Char) ++ ws1 ++ ('{' :: (inner ++ '}' ::
          (ws2 ++ btick :: btick :: btick :: post)))) = false := by
      rw [List.nil_append]
      exact json_not_prefix ws1 _ hws1
    rw [fenceTag, hjp]
    simp only [Bool.false_eq_true, if_false]
    rw [fenceBody_eq _ _ (by rw [List.nil_append]; exact hdw), hlz]
    simp
  · have hpre : (['j', 's', 'o', 'n'] : List Char).isPrefixOf
        (['j', 's', 'o', 'n'] ++ ws1 ++ ('{' :: (inner ++ '}' ::
          (ws2 ++ btick :: btick :: btick :: post)))) = true := by
      rw [List.append_assoc]
      simp [List.isPrefixOf]
    rw [fenceTag, hpre]
    simp only [if_true]
    have hdrop : (['j', 's', 'o', 'n'] ++ ws1 ++ ('{' :: (inner ++ '}' ::
        (ws2 ++ btick :: btick :: btick :: post)))).drop 4 =
        ws1 ++ ('{' :: (inner ++ '}' :: (ws2 ++ btick :: btick :: btick :: post))) := by
      rw [List.append_assoc]
      rfl
    rw [hdrop, fenceBody_eq _ _ hdw, hlz]
    simp

/-- The fence matcher fails at any start that is not a backtick. -/
theorem fenceAt_cons_ne (c : Char) (l : List Char) (h : ¬ c = btick) :
    fenceAt (c :: l) = none := by
  rcases l with _ | ⟨x, _ | ⟨y, ys⟩⟩ <;> simp [fenceAt, h]

/-- The regex search skips any backtick-free prefix. -/
theorem fenceSearch_append (pre rest : List Char) (hpre : btick ∉ pre) :
    fenceSearch (pre ++ rest) = fenceSearch rest := by
  induction pre with
  | nil => rfl
  | cons p ps ih =>
    rw [List.cons_append, fenceSearch,
      fenceAt_cons_ne p _ (fun h => hpre (h ▸ List.mem_cons_self p ps))]
    exact ih (fun h => hpre (List.mem_cons_of_mem p h))

/-- Extraction on a stripped text that holds a well-formed fenced JSON
object surrounded by backtick-free prose returns exactly the object's
text. -/
theorem extract_json_fenced (text pre tag ws1 inner ws2 post : List Char)
    (hdecomp : pyStrip text = pre ++ btick :: btick :: btick ::
      (tag ++ ws1 ++ ('{' :: (inner ++ '}' :: (ws2 ++ btick :: btick :: btick :: post)))))
    (htag : tag = [] ∨ tag = ['j', 's', 'o', 'n'])
    (hpre : btick ∉ pre) (hws1 : ∀ c ∈ ws1, isWs c) (hws2 : ∀ c ∈ ws2, isWs c)
    (hbt : btick ∉ inner) :
    extract_json_from_text text = '{' :: (inner ++ ['}']) := by
  have hfs : fenceSearch (pyStrip text) = some ('{' :: (inner ++ ['}'])) := by
    rw [hdecomp, fenceSearch_append pre _ hpre, fenceSearch,
      fenceAt_fence tag ws1 inner ws2 post htag hws1 hws2 hbt]
  rw [extract_json_from_text, hfs]

/-- Python `find` returns -1 exactly on absent characters. -/
theorem pyFind_eq_none (s : List Char) (c : Char) (h : c ∉ s) : pyFind s c = none := by
  induction s with
  | nil => rfl
  | cons x rest ih =>
    have hne : ¬ x = c := fun he => h (by rw [← he]; exact List.mem_cons_self x rest)
    rw [pyFind, if_neg hne, ih (fun hm => h (List.mem_cons_of_mem x hm))]
    rfl

/-- Python `rfind` returns -1 exactly on absent characters. -/
theorem pyRFind_eq_none (s : List Char) (c : Char) (h : c ∉ s) : pyRFind s c = none := by
  rw [pyRFind, pyFind_eq_none _ _ (fun hm => h (List.mem_reverse.mp hm))]

/-- A successful lazy group is the accumulator, some middle text, and the
final `}`. -/
theorem lazyGroup_shape (l : List Char) : ∀ acc g, lazyGroup acc l = some g →
    ∃ mid, g = acc ++ mid ++ ['}'] := by
  induction l with
  | nil => intro acc g h; exact absurd h (by rw [lazyGroup]; simp)
  | cons x rest ih =>
    intro acc g h
    rw [lazyGroup] at h
    by_cases hc : (decide (x = '}') && closeFence rest) = true
    · rw [if_pos hc] at h
      have hg : acc ++ ['}'] = g := by simpa using h
      exact ⟨[], by rw [← hg]; simp⟩
    · rw [if_neg hc] at h
      obtain ⟨mid, hm⟩ := ih (acc ++ [x]) g h
      exact ⟨x :: mid, by rw [hm]; simp⟩

/-- Characters of a successful lazy group come from the accumulator or
the scanned text. -/
theorem lazyGroup_subset (l : List Char) : ∀ acc g, lazyGroup acc l = some g →
    ∀ c, c ∈ g → c ∈ acc ∨ c ∈ l := by
  induction l with
  | nil => intro acc g h; exact absurd h (by rw [lazyGroup]; simp)
  | cons x rest ih =>
    intro acc g h c hc
    rw [lazyGroup] at h
    by_cases hcnd : (decide (x = '}') && closeFence rest) = true
    · rw [if_pos hcnd] at h
      have hg : acc ++ ['}'] = g := by simpa using h
      rw [← hg] at hc
      rcases List.mem_append.mp hc with h1 | h1
      · exact Or.inl h1
      · have hx : x = '}' := by
          have hcnd' := hcnd
          simp only [Bool.and_eq_true, decide_eq_true_eq] at hcnd'
          exact hcnd'.1
        have hcx : c = '}' := by simpa using h1
        right
        rw [hcx, ← hx]
        exact List.mem_cons_self x rest
    · rw [if_neg hcnd] at h
      rcases ih (acc ++ [x]) g h c hc with h1 | h1
      · rcases List.mem_append.mp h1 with h2 | h2
        · exact Or.inl h2
        · right
          have hcx : c = x := by simpa using h2
          rw [hcx]
          exact List.mem_cons_self x rest
      · exact Or.inr (List.mem_cons_of_mem x h1)

/-- A successful `fenceBody` returns brace-delimited text drawn from its
input. -/
theorem fenceBody_some (rest2 g : List Char) (h : fenceBody rest2 = some g) :
    (∀ c ∈ g, c ∈ rest2) ∧ ∃ mid, g = '{' :: (mid ++ ['}']) := by
  rw [fenceBody] at h
  split at h
  · rename_i body heq
    constructor
    · intro c hc
      rcases lazyGroup_subset body ['{'] g h c hc with h1 | h1
      · have hcb : c = '{' := by simpa using h1
        have hmem : c ∈ rest2.dropWhile isWs := by
          rw [heq, hcb]
          exact List.mem_cons_self _ _
        exact (List.dropWhile_suffix isWs).subset hmem
      · have hmem : c ∈ rest2.dropWhile isWs := by
          rw [heq]
          exact List.mem_cons_of_mem _ h1
        exact (List.dropWhile_suffix isWs).subset hmem
    · obtain ⟨mid, hm⟩ := lazyGroup_shape body ['{'] g h
      exact ⟨mid, by rw [hm]; simp⟩
  · exact absurd h (by simp)

/-- A successful `fenceTag` returns brace-delimited text drawn from its
input. -/
theorem fenceTag_some (rest g : List Char) (h : fenceTag rest = some g) :
    (∀ c ∈ g, c ∈ rest) ∧ ∃ mid, g = '{' :: (mid ++ ['}']) := by
  rw [fenceTag] at h
  by_cases hp : (['j', 's', 'o', 'n'] : List Char).isPrefixOf rest = true
  · rw [if_pos hp] at h
    obtain ⟨hsub, hshape⟩ := fenceBody_some _ _ h
    exact ⟨fun c hc => List.drop_subset 4 rest (hsub c hc), hshape⟩
  · rw [if_neg hp] at h
    exact fenceBody_some _ _ h

/-- A successful `fenceAt` returns brace-delimited text drawn from its
input. -/
theorem fenceAt_some (s g : List Char) (h : fenceAt s = some g) :
    (∀ c ∈ g, c ∈ s) ∧ ∃ mid, g = '{' :: (mid ++ ['}']) := by
  rcases s with _ | ⟨a, _ | ⟨b, _ | ⟨c0, rest⟩⟩⟩
  · exact Option.noConfusion h
  · exact Option.noConfusion h
  · exact Option.noConfusion h
  · rw [fenceAt] at h
    by_cases habc : a = btick ∧ b = btick ∧ c0 = btick
    · rw [if_pos habc] at h
      obtain ⟨hsub, hshape⟩ := fenceTag_some _ _ h
      refine ⟨fun c hc => ?_, hshape⟩
      exact List.mem_cons_of_mem _ (List.mem_cons_of_mem _ (List.mem_cons_of_mem _ (hsub c hc)))
    · rw [if_neg habc] at h
      exact absurd h (by simp)

/-- A successful fence search returns brace-delimited text drawn from the
searched string. -/
theorem fenceSearch_some (s : List Char) : ∀ g, fenceSearch s = some g →
    (∀ c ∈ g, c ∈ s) ∧ ∃ mid, g = '{' :: (mid ++ ['}']) := by
  induction s with
  | nil => intro g h; exact Option.noConfusion h
  | cons x rest ih =>
    intro g h
    rw [fenceSearch] at h
    rcases hAt : fenceAt (x :: rest) with _ | g'
    · rw [hAt] at h
      replace h : fenceSearch rest = some g := h
      obtain ⟨hsub, hshape⟩ := ih g h
      exact ⟨fun c hc => List.mem_cons_of_mem x (hsub c hc), hshape⟩
    · rw [hAt] at h
      replace h : some g' = some g := h
      have hg : g' = g := by simpa using h
      subst hg
      exact fenceAt_some _ _ hAt

/-- Stripping only removes characters. -/
theorem pyStrip_subset (text : List Char) : ∀ c ∈ pyStrip text, c ∈ text := by
  intro c hc
  rw [pyStrip, List.mem_reverse] at hc
  have h1 : c ∈ (text.dropWhile isWs).reverse := (List.dropWhile_suffix isWs).subset hc
  rw [List.mem_reverse] at h1
  exact (List.dropWhile_suffix isWs).subset h1

/-- Whatever branch extraction takes, its output only uses characters of
the stripped text. -/
theorem extract_json_subset (text : List Char) :
    ∀ c ∈ extract_json_from_text text, c ∈ pyStrip text := by
  intro c hc
  rw [extract_json_from_text] at hc
  rcases hf : fenceSearch (pyStrip text) with _ | g
  · rw [hf] at hc
    rcases h1 : pyFind (pyStrip text) '{' with _ | st
    · rw [h1] at hc
      exact hc
    · rw [h1] at hc
      rcases h2 : pyRFind (pyStrip text) '}' with _ | en
      · rw [h2] at hc
        exact hc
      · rw [h2] at hc
        replace hc : c ∈ (if st < en
            then ((pyStrip text).drop st).take (en + 1 - st) else pyStrip text) := hc
        by_cases hlt : st < en
        · rw [if_pos hlt] at hc
          exact List.drop_subset st (pyStrip text) (List.take_subset _ _ hc)
        · rw [if_neg hlt] at hc
          exact hc
  · rw [hf] at hc
    replace hc : c ∈ g := hc
    exact (fenceSearch_some _ g hf).1 c hc

/-- Anything after the head of the whitespace-stripped text is a suffix
of the original text. -/
theorem dropWhile_cons_suffix (s : List Char) (x : Char) (rest : List Char)
    (heq : s.dropWhile isWs = x :: rest) : rest <:+ s :=
  (List.suffix_cons x rest).trans (heq ▸ List.dropWhile_suffix isWs)

/-- `expectColon` only consumes from the front. -/
theorem expectColon_suffix (s r : List Char) (h : expectColon s = some r) : r <:+ s := by
  rw [expectColon] at h
  split at h
  · rename_i r0 heq
    have hr : r0 = r := by simpa using h
    subst hr
    exact dropWhile_cons_suffix s ':' r0 heq
  · exact Option.noConfusion h

/-- `takeDigits` only consumes from the front. -/
theorem takeDigits_suffix (s : List Char) : (takeDigits s).2 <:+ s := by
  induction s with
  | nil => simp [takeDigits]
  | cons c rest ih =>
    rw [takeDigits]
    by_cases hd : c.isDigit = true
    · simp only [hd, if_true]
      exact ih.trans (List.suffix_cons c rest)
    · simp only [hd, Bool.false_eq_true, if_false]
      exact List.suffix_rfl

/-- `parseIntPart` only consumes from the front. -/
theorem parseIntPart_suffix (s ip r : List Char) (h : parseIntPart s = some (ip, r)) :
    r <:+ s := by
  rcases s with _ | ⟨c, rest⟩
  · exact Option.noConfusion h
  · rw [parseIntPart] at h
    by_cases h0 : c = '0'
    · rw [if_pos h0] at h
      simp only [Option.some.injEq, Prod.mk.injEq] at h
      rw [← h.2]
      exact List.suffix_cons c rest
    · rw [if_neg h0] at h
      by_cases hd : c.isDigit = true
      · rw [if_pos hd] at h
        simp only [Option.some.injEq, Prod.mk.injEq] at h
        rw [← h.2]
        exact (takeDigits_suffix rest).trans (List.suffix_cons c rest)
      · rw [if_neg hd] at h
        exact Option.noConfusion h

/-- `parseExpDigits` only consumes from the front. -/
theorem parseExpDigits_suffix (pre r1 out r : List Char)
    (h : parseExpDigits pre r1 = some (out, r)) : r <:+ r1 := by
  rw [parseExpDigits] at h
  by_cases he : (takeDigits r1).1.isEmpty = true
  · rw [if_pos he] at h
    exact Option.noConfusion h
  · rw [if_neg he] at h
    simp only [Option.some.injEq, Prod.mk.injEq] at h
    rw [← h.2]
    exact takeDigits_suffix r1

/-- `parseExpSign` only consumes from the front. -/
theorem parseExpSign_suffix (pre s out r : List Char)
    (h : parseExpSign pre s = some (out, r)) : r <:+ s := by
  rcases s with _ | ⟨d, rr⟩
  · rw [parseExpSign] at h
    exact parseExpDigits_suffix _ _ _ _ h
  · rw [parseExpSign] at h
    by_cases hsg : d = '+' ∨ d = '-'
    · rw [if_pos hsg] at h
      exact (parseExpDigits_suffix _ _ _ _ h).trans (List.suffix_cons d rr)
    · rw [if_neg hsg] at h
      exact parseExpDigits_suffix _ _ _ _ h

/-- `parseExpPart` only consumes from the front. -/
theorem parseExpPart_suffix (pre s out r : List Char)
    (h : parseExpPart pre s = some (out, r)) : r <:+ s := by
  rcases s with _ | ⟨c, rest⟩
  · rw [parseExpPart] at h
    simp only [Option.some.injEq, Prod.mk.injEq] at h
    rw [← h.2]
  · rw [parseExpPart] at h
    by_cases he : c = 'e' ∨ c = 'E'
    · rw [if_pos he] at h
      exact (parseExpSign_suffix _ _ _ _ h).trans (List.suffix_cons c rest)
    · rw [if_neg he] at h
      simp only [Option.some.injEq, Prod.mk.injEq] at h
      rw [← h.2]

/-- `parseNumTail` only consumes from the front. -/
theorem parseNumTail_suffix (negip s2 out r : List Char)
    (h : parseNumTail negip s2 = some (out, r)) : r <:+ s2 := by
  rcases s2 with _ | ⟨c, rest⟩
  · rw [parseNumTail] at h
    simp only [Option.some.injEq, Prod.mk.injEq] at h
    rw [← h.2]
  · rw [parseNumTail] at h
    by_cases hdot : c = '.'
    · rw [if_pos hdot] at h
      by_cases he : (takeDigits rest).1.isEmpty = true
      · rw [if_pos he] at h
        exact Option.noConfusion h
      · rw [if_neg he] at h
        have h1 := parseExpPart_suffix _ _ _ _ h
        exact (h1.trans (takeDigits_suffix rest)).trans (List.suffix_cons c rest)
    · rw [if_neg hdot] at h
      exact parseExpPart_suffix _ _ _ _ h

/-- `parseNumber` only consumes from the front. -/
theorem parseNumber_suffix (s raw r : List Char) (h : parseNumber s = some (raw, r)) :
    r <:+ s := by
  rcases s with _ | ⟨c, rest⟩
  · exact Option.noConfusion h
  · rw [parseNumber] at h
    by_cases hneg : c = '-'
    · rw [if_pos hneg] at h
      rcases hip : parseIntPart rest with _ | ⟨ip, s2⟩
      · rw [hip] at h
        exact Option.noConfusion h
      · rw [hip] at h
        replace h : parseNumTail (['-'] ++ ip) s2 = some (raw, r) := h
        exact ((parseNumTail_suffix _ _ _ _ h).trans
          (parseIntPart_suffix _ _ _ hip)).trans (List.suffix_cons c rest)
    · rw [if_neg hneg] at h
      rcases hip : parseIntPart (c :: rest) with _ | ⟨ip, s2⟩
      · rw [hip] at h
        exact Option.noConfusion h
      · rw [hip] at h
        replace h : parseNumTail ip s2 = some (raw, r) := h
        exact (parseNumTail_suffix _ _ _ _ h).trans (parseIntPart_suffix _ _ _ hip)

/-- `parseStringBody` only consumes from the front. -/
theorem parseStringBody_suffix (fuel : Nat) :
    ∀ acc s cs r, parseStringBody fuel acc s = some (cs, r) → r <:+ s := by
  induction fuel with
  | zero =>
    intro acc s cs r h
    rcases s with _ | ⟨c, rest⟩ <;> exact Option.noConfusion h
  | succ f ih =>
    intro acc s cs r h
    rcases s with _ | ⟨c, rest⟩
    · exact Option.noConfusion h
    · rw [parseStringBody.eq_def] at h
      simp only at h
      by_cases h1 : c = '"'
      · rw [if_pos h1] at h
        simp only [Option.some.injEq, Prod.mk.injEq] at h
        rw [← h.2]
        exact List.suffix_cons c rest
      · rw [if_neg h1] at h
        by_cases h2 : c = '\\'
        · rw [if_pos h2] at h
          split at h
          · rename_i _ x1 x2 x3 x4 rest3
            simp only [Option.bind_eq_bind', Option.bind_eq_some'] at h
            obtain ⟨a, _, b, _, c4, _, d, _, h⟩ := h
            exact (ih _ _ _ _ h).trans ⟨[c, 'u', x1, x2, x3, x4], rfl⟩
          · exact Option.noConfusion h
          · rename_i _ e0 rest2 _ _
            simp only [Option.bind_eq_bind', Option.bind_eq_some'] at h
            obtain ⟨ch, _, h⟩ := h
            exact (ih _ _ _ _ h).trans ⟨[c, e0], rfl⟩
          · exact Option.noConfusion h
        · rw [if_neg h2] at h
          by_cases h3 : c.toNat < 32
          · rw [if_pos h3] at h
            exact Option.noConfusion h
          · rw [if_neg h3] at h
            exact (ih _ _ _ _ h).trans (List.suffix_cons c rest)

/-- The whitespace-stripped text is a suffix of the original, transported
along an equation. -/
theorem dropWhile_suffix_of_eq (s l : List Char) (heq : s.dropWhile isWs = l) : l <:+ s :=
  heq ▸ List.dropWhile_suffix isWs

/-- Unfolding of `parseValue` at positive fuel. -/
theorem parseValue_succ (f : Nat) (s : List Char) :
    parseValue (f + 1) s =
      parseValueStep (parseObjBody f) (parseArrBody f) (parseStringBody f []) s := by
  rw [parseValue.eq_def]

/-- Unfolding of `parseObjBody` at positive fuel. -/
theorem parseObjBody_succ (f : Nat) (s : List Char) :
    parseObjBody (f + 1) s =
      parseObjBodyStep (parseStringBody f []) (parseValue f) (parseObjTail f) s := by
  rw [parseObjBody.eq_def]

/-- Unfolding of `parseObjTail` at positive fuel. -/
theorem parseObjTail_succ (f : Nat) (s : List Char) :
    parseObjTail (f + 1) s =
      parseObjTailStep (parseStringBody f []) (parseValue f) (parseObjTail f) s := by
  rw [parseObjTail.eq_def]

/-- Unfolding of `parseArrBody` at positive fuel. -/
theorem parseArrBody_succ (f : Nat) (s : List Char) :
    parseArrBody (f + 1) s = parseArrBodyStep (parseValue f) (parseArrTail f) s := by
  rw [parseArrBody.eq_def]

/-- Unfolding of `parseArrTail` at positive fuel. -/
theorem parseArrTail_succ (f : Nat) (s : List Char) :
    parseArrTail (f + 1) s = parseArrTailStep (parseValue f) (parseArrTail f) s := by
  rw [parseArrTail.eq_def]

/-- `parseObjMember` only consumes from the front, given that its three
sub-parsers do. -/
theorem parseObjMember_suffix (pStr : List Char → Option (List Char × List Char))
    (pVal : List Char → Option (JVal × List Char))
    (pTail : List Char → Option (List (List Char × JVal) × List Char))
    (r0 : List Char) (fs : List (List Char × JVal)) (r : List Char)
    (hS : ∀ s cs rr, pStr s = some (cs, rr) → rr <:+ s)
    (hV : ∀ s v rr, pVal s = some (v, rr) → rr <:+ s)
    (hT : ∀ s fs0 rr, pTail s = some (fs0, rr) → rr <:+ s)
    (h : parseObjMember pStr pVal pTail r0 = some (fs, r)) : r <:+ r0 := by
  rw [parseObjMember] at h
  simp only [Option.bind_eq_bind', Option.bind_eq_some'] at h
  obtain ⟨⟨key, r1⟩, h1, r3, h2, ⟨v1, r4⟩, h3, ⟨fs5, r5⟩, h4, h⟩ := h
  simp only [Option.some.injEq, Prod.mk.injEq] at h
  rw [← h.2]
  exact (((hT r4 fs5 r5 h4).trans (hV r3 v1 r4 h3)).trans
    (expectColon_suffix r1 r3 h2)).trans (hS r0 key r1 h1)

/-- `parseValueStep` only consumes from the front, given that its
sub-parsers do. -/
theorem parseValueStep_suffix (pObj : List Char → Option (List (List Char × JVal) × List Char))
    (pArr : List Char → Option (List JVal × List Char))
    (pStr : List Char → Option (List Char × List Char))
    (s : List Char) (v : JVal) (r : List Char)
    (hObj : ∀ s0 fs rr, pObj s0 = some (fs, rr) → rr <:+ s0)
    (hArr : ∀ s0 xs rr, pArr s0 = some (xs, rr) → rr <:+ s0)
    (hStr : ∀ s0 cs rr, pStr s0 = some (cs, rr) → rr <:+ s0)
    (h : parseValueStep pObj pArr pStr s = some (v, r)) : r <:+ s := by
  rw [parseValueStep] at h
  split at h
  · rename_i rest heq
    simp only [Option.bind_eq_bind', Option.bind_eq_some'] at h
    obtain ⟨⟨fs, r1⟩, hob, h⟩ := h
    simp only [Option.some.injEq, Prod.mk.injEq] at h
    rw [← h.2]
    exact (hObj rest fs r1 hob).trans (dropWhile_cons_suffix s '{' rest heq)
  · rename_i rest heq
    simp only [Option.bind_eq_bind', Option.bind_eq_some'] at h
    obtain ⟨⟨xs, r1⟩, hab, h⟩ := h
    simp only [Option.some.injEq, Prod.mk.injEq] at h
    rw [← h.2]
    exact (hArr rest xs r1 hab).trans (dropWhile_cons_suffix s '[' rest heq)
  · rename_i rest heq
    simp only [Option.bind_eq_bind', Option.bind_eq_some'] at h
    obtain ⟨⟨cs, r1⟩, hsb, h⟩ := h
    simp only [Option.some.injEq, Prod.mk.injEq] at h
    rw [← h.2]
    exact (hStr rest cs r1 hsb).trans (dropWhile_cons_suffix s '"' rest heq)
  · rename_i rest heq
    simp only [Option.some.injEq, Prod.mk.injEq] at h
    rw [← h.2]
    exact List.IsSuffix.trans ⟨['t', 'r', 'u', 'e'], rfl⟩ (dropWhile_suffix_of_eq s _ heq)
  · rename_i rest heq
    simp only [Option.some.injEq, Prod.mk.injEq] at h
    rw [← h.2]
    exact List.IsSuffix.trans ⟨['f', 'a', 'l', 's', 'e'], rfl⟩ (dropWhile_suffix_of_eq s _ heq)
  · rename_i rest heq
    simp only [Option.some.injEq, Prod.mk.injEq] at h
    rw [← h.2]
    exact List.IsSuffix.trans ⟨['n', 'u', 'l', 'l'], rfl⟩ (dropWhile_suffix_of_eq s _ heq)
  · simp only [Option.bind_eq_bind', Option.bind_eq_some'] at h
    obtain ⟨⟨raw, r1⟩, hnum, h⟩ := h
    simp only [Option.some.injEq, Prod.mk.injEq] at h
    rw [← h.2]
    rename_i other heq1 heq2
    exact (parseNumber_suffix _ raw r1 hnum).trans (List.dropWhile_suffix isWs)

/-- `parseObjBodyStep` only consumes from the front, given that its
sub-parsers do. -/
theorem parseObjBodyStep_suffix (pStr : List Char → Option (List Char × List Char))
    (pVal : List Char → Option (JVal × List Char))
    (pTail : List Char → Option (List (List Char × JVal) × List Char))
    (s : List Char) (fs : List (List Char × JVal)) (r : List Char)
    (hS : ∀ s0 cs rr, pStr s0 = some (cs, rr) → rr <:+ s0)
    (hV : ∀ s0 v rr, pVal s0 = some (v, rr) → rr <:+ s0)
    (hT : ∀ s0 fs0 rr, pTail s0 = some (fs0, rr) → rr <:+ s0)
    (h : parseObjBodyStep pStr pVal pTail s = some (fs, r)) : r <:+ s := by
  rw [parseObjBodyStep] at h
  split at h
  · rename_i rest heq
    simp only [Option.some.injEq, Prod.mk.injEq] at h
    rw [← h.2]
    exact dropWhile_cons_suffix s '}' rest heq
  · rename_i rest heq
    exact (parseObjMember_suffix pStr pVal pTail rest fs r hS hV hT h).trans
      (dropWhile_cons_suffix s '"' rest heq)
  · exact Option.noConfusion h

/-- `parseObjTailStep` only consumes from the front, given that its
sub-parsers do. -/
theorem parseObjTailStep_suffix (pStr : List Char → Option (List Char × List Char))
    (pVal : List Char → Option (JVal × List Char))
    (pTail : List Char → Option (List (List Char × JVal) × List Char))
    (s : List Char) (fs : List (List Char × JVal)) (r : List Char)
    (hS : ∀ s0 cs rr, pStr s0 = some (cs, rr) → rr <:+ s0)
    (hV : ∀ s0 v rr, pVal s0 = some (v, rr) → rr <:+ s0)
    (hT : ∀ s0 fs0 rr, pTail s0 = some (fs0, rr) → rr <:+ s0)
    (h : parseObjTailStep pStr pVal pTail s = some (fs, r)) : r <:+ s := by
  rw [parseObjTailStep] at h
  split at h
  · rename_i rest heq
    simp only [Option.some.injEq, Prod.mk.injEq] at h
    rw [← h.2]
    exact dropWhile_cons_suffix s '}' rest heq
  · rename_i rest heq
    split at h
    · rename_i r0 heq2
      exact ((parseObjMember_suffix pStr pVal pTail r0 fs r hS hV hT h).trans
        (dropWhile_cons_suffix rest '"' r0 heq2)).trans
        (dropWhile_cons_suffix s ',' rest heq)
    · exact Option.noConfusion h
  · exact Option.noConfusion h

/-- `parseArrElems` only consumes from the front, given that its
sub-parsers do. -/
theorem parseArrElems_suffix (pVal : List Char → Option (JVal × List Char))
    (pTail : List Char → Option (List JVal × List Char))
    (s1 : List Char) (xs : List JVal) (r : List Char)
    (hV : ∀ s0 v rr, pVal s0 = some (v, rr) → rr <:+ s0)
    (hT : ∀ s0 xs0 rr, pTail s0 = some (xs0, rr) → rr <:+ s0)
    (h : parseArrElems pVal pTail s1 = some (xs, r)) : r <:+ s1 := by
  rw [parseArrElems] at h
  simp only [Option.bind_eq_bind', Option.bind_eq_some'] at h
  obtain ⟨⟨v1, r1⟩, hv, ⟨xs2, r2⟩, hat, h⟩ := h
  simp only [Option.some.injEq, Prod.mk.injEq] at h
  rw [← h.2]
  exact (hT r1 xs2 r2 hat).trans (hV s1 v1 r1 hv)

/-- `parseArrBodyStep` only consumes from the front, given that its
sub-parsers do. -/
theorem parseArrBodyStep_suffix (pVal : List Char → Option (JVal × List Char))
    (pTail : List Char → Option (List JVal × List Char))
    (s : List Char) (xs : List JVal) (r : List Char)
    (hV : ∀ s0 v rr, pVal s0 = some (v, rr) → rr <:+ s0)
    (hT : ∀ s0 xs0 rr, pTail s0 = some (xs0, rr) → rr <:+ s0)
    (h : parseArrBodyStep pVal pTail s = some (xs, r)) : r <:+ s := by
  rw [parseArrBodyStep] at h
  split at h
  · rename_i rest heq
    simp only [Option.some.injEq, Prod.mk.injEq] at h
    rw [← h.2]
    exact dropWhile_cons_suffix s ']' rest heq
  · exact (parseArrElems_suffix pVal pTail _ xs r hV hT h).trans (List.dropWhile_suffix isWs)

/-- `parseArrTailStep` only consumes from the front, given that its
sub-parsers do. -/
theorem parseArrTailStep_suffix (pVal : List Char → Option (JVal × List Char))
    (pTail : List Char → Option (List JVal × List Char))
    (s : List Char) (xs : List JVal) (r : List Char)
    (hV : ∀ s0 v rr, pVal s0 = some (v, rr) → rr <:+ s0)
    (hT : ∀ s0 xs0 rr, pTail s0 = some (xs0, rr) → rr <:+ s0)
    (h : parseArrTailStep pVal pTail s = some (xs, r)) : r <:+ s := by
  rw [parseArrTailStep] at h
  split at h
  · rename_i rest heq
    simp only [Option.some.injEq, Prod.mk.injEq] at h
    rw [← h.2]
    exact dropWhile_cons_suffix s ']' rest heq
  · rename_i rest heq
    exact (parseArrElems_suffix pVal pTail rest xs r hV hT h).trans
      (dropWhile_cons_suffix s ',' rest heq)
  · exact Option.noConfusion h

/-- All five mutually recursive JSON parsers only consume from the front:
the returned remainder is a suffix of the input. -/
theorem parsers_suffix (fuel : Nat) :
    (∀ s v r, parseValue fuel s = some (v, r) → r <:+ s) ∧
    (∀ s fs r, parseObjBody fuel s = some (fs, r) → r <:+ s) ∧
    (∀ s fs r, parseObjTail fuel s = some (fs, r) → r <:+ s) ∧
    (∀ s xs r, parseArrBody fuel s = some (xs, r) → r <:+ s) ∧
    (∀ s xs r, parseArrTail fuel s = some (xs, r) → r <:+ s) := by
  induction fuel with
  | zero =>
    refine ⟨fun s v r h => ?_, fun s fs r h => ?_, fun s fs r h => ?_,
      fun s xs r h => ?_, fun s xs r h => ?_⟩ <;> exact Option.noConfusion h
  | succ f ih =>
    obtain ⟨ihV, ihOB, ihOT, ihAB, ihAT⟩ := ih
    have ihS : ∀ s0 cs rr, parseStringBody f [] s0 = some (cs, rr) → rr <:+ s0 :=
      fun s0 cs rr h => parseStringBody_suffix f [] s0 cs rr h
    refine ⟨fun s v r h => ?_, fun s fs r h => ?_, fun s fs r h => ?_,
      fun s xs r h => ?_, fun s xs r h => ?_⟩
    · rw [parseValue_succ] at h
      exact parseValueStep_suffix _ _ _ s v r ihOB ihAB ihS h
    · rw [parseObjBody_succ] at h
      exact parseObjBodyStep_suffix _ _ _ s fs r ihS ihV ihOT h
    · rw [parseObjTail_succ] at h
      exact parseObjTailStep_suffix _ _ _ s fs r ihS ihV ihOT h
    · rw [parseArrBody_succ] at h
      exact parseArrBodyStep_suffix _ _ s xs r ihV ihAT h
    · rw [parseArrTail_succ] at h
      exact parseArrTailStep_suffix _ _ s xs r ihV ihAT h

/-- A head character exposed by whitespace-stripping occurs in the
original string. -/
theorem mem_of_dropWhile_eq (s : List Char) (x : Char) (rest : List Char)
    (heq : s.dropWhile isWs = x :: rest) : x ∈ s :=
  (dropWhile_suffix_of_eq s (x :: rest) heq).subset (List.mem_cons_self x rest)

/-- A `parseValueStep` result that is an object can only come from the
`{` branch, with the object sub-parser succeeding on the tail. -/
theorem parseValueStep_obj (pObj : List Char → Option (List (List Char × JVal) × List Char))
    (pArr : List Char → Option (List JVal × List Char))
    (pStr : List Char → Option (List Char × List Char))
    (s : List Char) (fs : List (List Char × JVal)) (r : List Char)
    (h : parseValueStep pObj pArr pStr s = some (JVal.obj fs, r)) :
    ∃ rest, s.dropWhile isWs = '{' :: rest ∧ pObj rest = some (fs, r) := by
  rw [parseValueStep] at h
  split at h
  · rename_i rest heq
    simp only [Option.bind_eq_bind', Option.bind_eq_some'] at h
    obtain ⟨⟨fs1, r1⟩, hob, h⟩ := h
    simp only [Option.some.injEq, Prod.mk.injEq, JVal.obj.injEq] at h
    obtain ⟨hfs, hr⟩ := h
    rw [hfs, hr] at hob
    exact ⟨rest, heq, hob⟩
  · simp only [Option.bind_eq_bind', Option.bind_eq_some'] at h
    obtain ⟨⟨xs1, r1⟩, _, h⟩ := h
    simp at h
  · simp only [Option.bind_eq_bind', Option.bind_eq_some'] at h
    obtain ⟨⟨cs1, r1⟩, _, h⟩ := h
    simp at h
  · simp at h
  · simp at h
  · simp at h
  · simp only [Option.bind_eq_bind', Option.bind_eq_some'] at h
    obtain ⟨⟨raw1, r1⟩, _, h⟩ := h
    simp at h

/-- A successful `parseObjMember` implies a closing `}` occurs in its
input, given that the tail parser guarantees one and the other
sub-parsers only consume from the front. -/
theorem parseObjMember_close (pStr : List Char → Option (List Char × List Char))
    (pVal : List Char → Option (JVal × List Char))
    (pTail : List Char → Option (List (List Char × JVal) × List Char))
    (r0 : List Char) (fs : List (List Char × JVal)) (r : List Char)
    (hS : ∀ s0 cs rr, pStr s0 = some (cs, rr) → rr <:+ s0)
    (hV : ∀ s0 v rr, pVal s0 = some (v, rr) → rr <:+ s0)
    (hTc : ∀ s0 fs0 rr, pTail s0 = some (fs0, rr) → '}' ∈ s0)
    (h : parseObjMember pStr pVal pTail r0 = some (fs, r)) : '}' ∈ r0 := by
  rw [parseObjMember] at h
  simp only [Option.bind_eq_bind', Option.bind_eq_some'] at h
  obtain ⟨⟨key, r1⟩, h1, r3, h2, ⟨v1, r4⟩, h3, ⟨fs5, r5⟩, h4, h⟩ := h
  have hm : '}' ∈ r4 := hTc r4 fs5 r5 h4
  exact (hS r0 key r1 h1).subset ((expectColon_suffix r1 r3 h2).subset
    ((hV r3 v1 r4 h3).subset hm))

/-- A successful `parseObjBodyStep` implies a closing `}` in its
input. -/
theorem parseObjBodyStep_close (pStr : List Char → Option (List Char × List Char))
    (pVal : List Char → Option (JVal × List Char))
    (pTail : List Char → Option (List (List Char × JVal) × List Char))
    (s : List Char) (fs : List (List Char × JVal)) (r : List Char)
    (hS : ∀ s0 cs rr, pStr s0 = some (cs, rr) → rr <:+ s0)
    (hV : ∀ s0 v rr, pVal s0 = some (v, rr) → rr <:+ s0)
    (hTc : ∀ s0 fs0 rr, pTail s0 = some (fs0, rr) → '}' ∈ s0)
    (h : parseObjBodyStep pStr pVal pTail s = some (fs, r)) : '}' ∈ s := by
  rw [parseObjBodyStep] at h
  split at h
  · rename_i rest heq
    exact mem_of_dropWhile_eq s '}' rest heq
  · rename_i rest heq
    exact (dropWhile_cons_suffix s '"' rest heq).subset
      (parseObjMember_close pStr pVal pTail rest fs r hS hV hTc h)
  · exact Option.noConfusion h

/-- A successful `parseObjTailStep` implies a closing `}` in its
input. -/
theorem parseObjTailStep_close (pStr : List Char → Option (List Char × List Char))
    (pVal : List Char → Option (JVal × List Char))
    (pTail : List Char → Option (List (List Char × JVal) × List Char))
    (s : List Char) (fs : List (List Char × JVal)) (r : List Char)
    (hS : ∀ s0 cs rr, pStr s0 = some (cs, rr) → rr <:+ s0)
    (hV : ∀ s0 v rr, pVal s0 = some (v, rr) → rr <:+ s0)
    (hTc : ∀ s0 fs0 rr, pTail s0 = some (fs0, rr) → '}' ∈ s0)
    (h : parseObjTailStep pStr pVal pTail s = some (fs, r)) : '}' ∈ s := by
  rw [parseObjTailStep] at h
  split at h
  · rename_i rest heq
    exact mem_of_dropWhile_eq s '}' rest heq
  · rename_i rest heq
    split at h
    · rename_i r0 heq2
      exact (dropWhile_cons_suffix s ',' rest heq).subset
        ((dropWhile_cons_suffix rest '"' r0 heq2).subset
          (parseObjMember_close pStr pVal pTail r0 fs r hS hV hTc h))
    · exact Option.noConfusion h
  · exact Option.noConfusion h

/-- A successful object-member parse at any fuel implies a closing `}`
in the input. -/
theorem parseObj_close (fuel : Nat) :
    (∀ s fs r, parseObjBody fuel s = some (fs, r) → '}' ∈ s) ∧
    (∀ s fs r, parseObjTail fuel s = some (fs, r) → '}' ∈ s) := by
  induction fuel with
  | zero =>
    refine ⟨fun s fs r h => ?_, fun s fs r h => ?_⟩ <;> exact Option.noConfusion h
  | succ f ih =>
    have hS : ∀ s0 cs rr, parseStringBody f [] s0 = some (cs, rr) → rr <:+ s0 :=
      fun s0 cs rr h => parseStringBody_suffix f [] s0 cs rr h
    have hV : ∀ s0 v rr, parseValue f s0 = some (v, rr) → rr <:+ s0 :=
      (parsers_suffix f).1
    refine ⟨fun s fs r h => ?_, fun s fs r h => ?_⟩
    · rw [parseObjBody_succ] at h
      exact parseObjBodyStep_close _ _ _ s fs r hS hV ih.2 h
    · rw [parseObjTail_succ] at h
      exact parseObjTailStep_close _ _ _ s fs r hS hV ih.2 h

/-- A `parseValue` result that is an object implies both braces occur in
the input. -/
theorem parseValue_obj_braces (fuel : Nat) (s : List Char) (fs : List (List Char × JVal))
    (r : List Char) (h : parseValue fuel s = some (JVal.obj fs, r)) :
    '{' ∈ s ∧ '}' ∈ s := by
  rcases fuel with _ | f
  · exact Option.noConfusion h
  · rw [parseValue_succ] at h
    obtain ⟨rest, heq, hob⟩ := parseValueStep_obj _ _ _ s fs r h
    refine ⟨mem_of_dropWhile_eq s '{' rest heq, ?_⟩
    exact (dropWhile_cons_suffix s '{' rest heq).subset ((parseObj_close f).1 rest fs r hob)

/-- A `jsonLoads` result that is an object implies both braces occur in
the parsed string. -/
theorem jsonLoads_obj_braces (s : List Char) (fs : List (List Char × JVal))
    (h : jsonLoads s = some (JVal.obj fs)) : '{' ∈ s ∧ '}' ∈ s := by
  rw [jsonLoads] at h
  rcases hp : parseValue (2 * s.length + 2) s with _ | ⟨v, rest⟩
  · rw [hp] at h
    exact Option.noConfusion h
  · rw [hp] at h
    replace h : (if (rest.dropWhile isWs).isEmpty then some v else none) =
        some (JVal.obj fs) := h
    by_cases he : (rest.dropWhile isWs).isEmpty = true
    · rw [if_pos he] at h
      have hv : v = JVal.obj fs := by simpa using h
      rw [hv] at hp
      exact parseValue_obj_braces _ s fs rest hp
    · rw [if_neg he] at h
      exact Option.noConfusion h

/-- When either brace is absent from the raw text, no object can be
parsed out of it, so `parse_with_pydantic` necessarily fails, whatever
the schema validator is. -/
theorem parse_error_of_missing_brace {T : Type}
    (validate : List (List Char × JVal) → Option T) (name text : List Char)
    (h : '{' ∉ text ∨ '}' ∉ text) :
    ∃ e, parse_with_pydantic validate name text = Except.error e := by
  have hnotobj : ∀ fs, jsonLoads (extract_json_from_text text) ≠ some (JVal.obj fs) := by
    intro fs hj
    obtain ⟨h1, h2⟩ := jsonLoads_obj_braces _ fs hj
    rcases h with h | h
    · exact h (pyStrip_subset text '{' (extract_json_subset text '{' h1))
    · exact h (pyStrip_subset text '}' (extract_json_subset text '}' h2))
  rcases hj : jsonLoads (extract_json_from_text text) with _ | v
  · exact ⟨⟨name, text.take 500⟩, by simp [parse_with_pydantic, hj]⟩
  · cases v with
    | obj fs => exact absurd hj (hnotobj fs)
    | null => exact ⟨⟨name, text.take 500⟩, by simp [parse_with_pydantic, hj]⟩
    | bool b => exact ⟨⟨name, text.take 500⟩, by simp [parse_with_pydantic, hj]⟩
    | num raw => exact ⟨⟨name, text.take 500⟩, by simp [parse_with_pydantic, hj]⟩
    | str cs => exact ⟨⟨name, text.take 500⟩, by simp [parse_with_pydantic, hj]⟩
    | arr xs => exact ⟨⟨name, text.take 500⟩, by simp [parse_with_pydantic, hj]⟩

/-- C4: (1) on text whose stripped form is backtick-free prose around a
fenced code block holding a JSON object (optionally `json`-tagged,
backtick-free, whitespace-padded), extraction returns exactly the
object's text; (2) otherwise, when no fence matches and the first `{`
precedes the last `}`, extraction returns exactly that span; (3) for
text missing `{` or missing `}` (so no object, and no balanced brace
pair, can occur in it), parsing fails deterministically with a
`ParseError`, whatever the target schema's validator is. -/
theorem extract_json_contract :
    (∀ text pre tag ws1 inner ws2 post : List Char,
      pyStrip text = pre ++ btick :: btick :: btick ::
        (tag ++ ws1 ++ ('{' :: (inner ++ '}' :: (ws2 ++ btick :: btick :: btick :: post)))) →
      (tag = [] ∨ tag = ['j', 's', 'o', 'n']) →
      btick ∉ pre → (∀ c ∈ ws1, isWs c) → (∀ c ∈ ws2, isWs c) → btick ∉ inner →
      extract_json_from_text text = '{' :: (inner ++ ['}'])) ∧
    (∀ (text : List Char) (i j : Nat),
      fenceSearch (pyStrip text) = none →
      pyFind (pyStrip text) '{' = some i →
      pyRFind (pyStrip text) '}' = some j →
      i < j →
      extract_json_from_text text = ((pyStrip text).drop i).take (j + 1 - i)) ∧
    (∀ (T : Type) (validate : List (List Char × JVal) → Option T) (name text : List Char),
      ('{' ∉ text ∨ '}' ∉ text) →
      ∃ e, parse_with_pydantic validate name text = Except.error e) := by
  refine ⟨?_, ?_, ?_⟩
  · intro text pre tag ws1 inner ws2 post hdecomp htag hpre hws1 hws2 hbt
    exact extract_json_fenced text pre tag ws1 inner ws2 post hdecomp htag hpre hws1 hws2 hbt
  · intro text i j hf hfind hrfind hij
    rw [extract_json_from_text, hf, hfind, hrfind]
    show (if i < j then ((pyStrip text).drop i).take (j + 1 - i) else pyStrip text) =
      ((pyStrip text).drop i).take (j + 1 - i)
    rw [if_pos hij]
  · intro T validate name text h
    exact parse_error_of_missing_brace validate name text h

/-- Closed witness for the C4 theorem: the fenced clause applied to a
concrete prose-wrapped, `json`-tagged fenced object. -/
theorem extract_json_contract_witness :
    extract_json_from_text c4SampleText = '{' :: (['"', 'a', '"', ':', ' ', '1'] ++ ['}']) :=
  extract_json_contract.1 c4SampleText ['s', 'e', 'e', ':', ' '] ['j', 's', 'o', 'n'] ['\n']
    ['"', 'a', '"', ':', ' ', '1'] ['\n'] [' ', 'o', 'k'] (by decide) (Or.inr rfl)
    (by decide) (by decide) (by decide) (by decide)

end DeepScribe
